import Mathlib

/-!
Verification of the markdown semantic search engine (`src/service.py`,
class `MarkdownSemanticSearch`).

The Python code is shallowly embedded: strings become `List Char` / `String`,
the DuckDB tables become lists of row structures, floating point numbers are
modelled as real numbers, and the `while` loop of `chunk_markdown` becomes a
fuel-indexed step function (the loop is not known to terminate; indeed it does
not on some inputs, see the theorems below).
-/

namespace MdSearch

/-! ## Python string primitives -/

/-- Python whitespace test for the ASCII fragment: the characters matched by
the regex class `\s` and stripped by `str.strip()`. -/
def isPySpace (c : Char) : Bool :=
  c = ' ' || c = '\t' || c = '\n' || c = '\r' || c = '\x0b' || c = '\x0c'

/-- Python slice-index normalization: a negative index counts from the end,
then the index is clamped into `[0, n]`. -/
def normIdx (x : Int) (n : Nat) : Nat :=
  if x < 0 then (x + n).toNat else min x.toNat n

/-- Python slicing `s[a:b]` (step 1), with negative-index wrap-around. -/
def pySlice (cs : List Char) (a b : Int) : List Char :=
  (cs.take (normIdx b cs.length)).drop (normIdx a cs.length)

/-- Python `str.strip()`: remove leading and trailing whitespace. -/
def pyStrip (cs : List Char) : List Char :=
  ((cs.dropWhile isPySpace).reverse.dropWhile isPySpace).reverse

/-! ## Tokenizer (`MarkdownSemanticSearch._tokenize`) -/

/-- The stop-word set of `_tokenize`, verbatim from the source. -/
def stop_words : List String :=
  ["the", "a", "an", "and", "or", "but", "in", "on", "at", "to", "for",
   "of", "with", "by", "from", "is", "are", "was", "were", "be", "been",
   "being", "have", "has", "had", "do", "does", "did", "will", "would",
   "should", "could", "may", "might", "must", "can", "this", "that",
   "these", "those", "it", "its", "they", "them", "their"]

/-- Python word character (`\w`), ASCII fragment: letters, digits, underscore. -/
def isWordChar (c : Char) : Bool :=
  c.isAlphanum || c = '_'

/-- Lowercase ASCII letter, the character class `[a-z]` of the token regex. -/
def isLowerAZ (c : Char) : Bool :=
  'a' ≤ c && c ≤ 'z'

/-- Accumulator pass splitting a text into maximal runs of word characters;
`cur` is the current run, reversed. -/
def wordRunsGo (cur : List Char) : List Char → List (List Char)
  | [] => if cur = [] then [] else [cur.reverse]
  | c :: rest =>
    if isWordChar c then wordRunsGo (c :: cur) rest
    else if cur = [] then wordRunsGo [] rest
    else cur.reverse :: wordRunsGo [] rest

/-- Maximal runs of word characters of a text.  `re.findall` with the
pattern `\b[a-z]{3,}\b` can only match a whole such run: a match must start
and end at a `\b` boundary, and inside a run there is no boundary, so a run
containing any non-`[a-z]` word character (digit, underscore) yields no
match at all. -/
def wordRuns (cs : List Char) : List (List Char) :=
  wordRunsGo [] cs

/-- Embedding of `_tokenize`: lowercase the text, find all matches of
`\b[a-z]{3,}\b` (= the maximal word runs made only of `[a-z]` with length at
least 3), and drop stop words.  Lowercasing is ASCII (`Char.toLower`), which
covers the behaviour of `str.lower()` on the ASCII fragment. -/
def tokenize (s : String) : List String :=
  let lowered := s.toList.map Char.toLower
  let toks := ((wordRuns lowered).filter
      (fun r => r.all isLowerAZ && decide (3 ≤ r.length))).map (fun r => String.mk r)
  toks.filter (fun t => !stop_words.contains t)

/-! ## Whitespace normalization (`re.sub` in `chunk_markdown`) -/

/-- Replacement performed by `re.sub(r'\n\s*\n\s*\n+', '\n\n', text)` on one
maximal whitespace run.  The regex can only match inside a single maximal
whitespace run; it matches iff the run contains at least three newlines, the
(leftmost, greedy-with-backtracking) match then spans from the first newline
of the run to just after its last newline, and is replaced by two newlines.
The scan resumes after the match, where the rest of the run has no newline,
so each run hosts at most one match. -/
def collapseRun (run : List Char) : List Char :=
  if 3 ≤ run.count '\n' then
    (run.takeWhile (fun c => c ≠ '\n')) ++ ('\n' :: '\n' ::
      (run.reverse.takeWhile (fun c => c ≠ '\n')).reverse)
  else run

/-- Accumulator pass of the normalization: `cur` is the current maximal
whitespace run, reversed; each completed run goes through `collapseRun`
(note `collapseRun [] = []`). -/
def normGo (cur : List Char) : List Char → List Char
  | [] => collapseRun cur.reverse
  | c :: rest =>
    if isPySpace c then normGo (c :: cur) rest
    else collapseRun cur.reverse ++ (c :: normGo [] rest)

/-- Embedding of the normalization pass
`re.sub(r'\n\s*\n\s*\n+', '\n\n', text)`: process each maximal whitespace
run with `collapseRun`. -/
def normalizeText (cs : List Char) : List Char :=
  normGo [] cs

/-! ## Chunker (`MarkdownSemanticSearch.chunk_markdown`) -/

/-- End offsets of the non-overlapping matches of `re.finditer(r'\n\n', w)`,
relative to the window, starting at index `i`. -/
def matchEndsNN : Nat → List Char → List Nat
  | _, [] => []
  | _, [_] => []
  | i, a :: b :: rest =>
    if a = '\n' && b = '\n' then (i + 2) :: matchEndsNN (i + 2) rest
    else matchEndsNN (i + 1) (b :: rest)

/-- End offsets of the matches of `re.finditer(r'[.!?]\s', w)`. -/
def matchEndsPunct : Nat → List Char → List Nat
  | _, [] => []
  | _, [_] => []
  | i, a :: b :: rest =>
    if (a = '.' || a = '!' || a = '?') && isPySpace b then
      (i + 2) :: matchEndsPunct (i + 2) rest
    else matchEndsPunct (i + 1) (b :: rest)

/-- End offsets of the matches of `re.finditer(r'\s', w)`. -/
def matchEndsWS : Nat → List Char → List Nat
  | _, [] => []
  | i, c :: rest =>
    if isPySpace c then (i + 1) :: matchEndsWS (i + 1) rest
    else matchEndsWS (i + 1) rest

/-- Python `min(xs, key=k)`: the first element with minimal key. -/
def bestBy (k : α → Nat) : α → List α → α
  | best, [] => best
  | best, x :: xs => if k x < k best then bestBy k x xs else bestBy k best xs

/-- Smart boundary detection of `chunk_markdown`: look for a natural break in
the window `text[max(end-50,start) : min(end+50,len)]`, trying the patterns
`\n\n`, `[.!?]\s`, `\s` in priority order and taking, within the first class
that matches, the match whose end is closest to the tentative `end` (ties go
to the leftmost match, as for Python `min`). -/
def snapEnd (t : List Char) (start e : Int) : Int :=
  let n : Int := t.length
  let ss := max (e - 50) start
  let se := min (e + 50) n
  let w := pySlice t ss se
  let ends :=
    let a := matchEndsNN 0 w
    if a ≠ [] then a else
      let b := matchEndsPunct 0 w
      if b ≠ [] then b else matchEndsWS 0 w
  match ends with
  | [] => e
  | x :: xs => ss + (bestBy (fun m => (ss + (m : Int) - e).natAbs) x xs : Nat)

/-- State of the `while` loop of `chunk_markdown`: the chunks accumulated so
far and the cursor `start`. -/
structure CState where
  chunks : List String
  start : Int
  deriving DecidableEq

/-- One iteration of the `while` loop of `chunk_markdown`: either the loop
continues with a new state (`Sum.inl`) or it stops and returns the chunk list
(`Sum.inr`). -/
def chunkStep (t : List Char) (csz ov : Int) (s : CState) : CState ⊕ List String :=
  let n : Int := t.length
  if s.start < n then
    let e0 := min (s.start + csz) n
    let e := if e0 < n then snapEnd t s.start e0 else e0
    let piece := pyStrip (pySlice t s.start e)
    let chunks := if piece = [] then s.chunks else s.chunks ++ [String.mk piece]
    let st := e - ov
    if n ≤ e ∨ n ≤ st then Sum.inr chunks
    else Sum.inl ⟨chunks, st⟩
  else Sum.inr s.chunks

/-- Fuel-indexed iteration of `chunkStep`; `none` means the loop did not
finish within `fuel` iterations. -/
def chunkRun (t : List Char) (csz ov : Int) : Nat → CState → Option (List String)
  | 0, _ => none
  | fuel + 1, s =>
    match chunkStep t csz ov s with
    | Sum.inr out => some out
    | Sum.inl s' => chunkRun t csz ov fuel s'

/-- Embedding of `chunk_markdown`: whitespace normalization, parameter
validation (`ValueError` becomes `Except.error`), then the chunking loop.
`Except.ok none` means the loop ran out of fuel. -/
def chunk_markdown (fuel : Nat) (text : String) (csz ov : Int) :
    Except String (Option (List String)) :=
  let t := normalizeText text.toList
  if csz ≤ 0 then .error "chunk_size must be positive"
  else if ov < 0 then .error "overlap must be non-negative"
  else if csz ≤ ov then .error "overlap must be smaller than chunk_size"
  else .ok (chunkRun t csz ov fuel ⟨[], 0⟩)

/-! ## Term frequencies (`_calculate_tf_batch`) -/

/-- Python dict increment `d[k] = d.get(k, 0) + 1`: bump the count in place
if the key exists, else append it with count 1. -/
def dictIncr (l : List (String × Nat)) (k : String) : List (String × Nat) :=
  match l with
  | [] => [(k, 1)]
  | p :: rest => if p.1 = k then (p.1, p.2 + 1) :: rest else p :: dictIncr rest k

/-- Python `collections.Counter` over a token list, as an association list in
first-occurrence order (the iteration order of `Counter.items()`) carrying the
total occurrence counts. -/
def counter (l : List String) : List (String × Nat) :=
  l.foldl dictIncr []

/-- Per-chunk body of `_calculate_tf_batch` (also the `query_tf` computation in
`search`): `term ↦ count / len(tokens)`, empty when there are no tokens. -/
noncomputable def calculate_tf (tokens : List String) : List (String × ℝ) :=
  if tokens = [] then []
  else (counter tokens).map (fun p => (p.1, (p.2 : ℝ) / (tokens.length : ℝ)))

/-! ## The store: the three DuckDB tables as lists of rows -/

/-- A row of the `chunks` table. -/
structure ChunkRow where
  id : Int
  source_file : String
  chunk_text : String
  chunk_index : Int
  token_count : Int
  deriving DecidableEq

/-- A row of the `tfidf_vectors` table (floats as reals). -/
structure VecRow where
  chunk_id : Int
  term : String
  tf : ℝ
  tfidf : ℝ

/-- A row of the `idf_scores` table. -/
structure IdfRow where
  term : String
  doc_frequency : Int
  idf_score : ℝ

/-- The database state: the three tables plus the `chunks_seq` sequence
counter (`START 1`, monotonic id allocation). -/
@[ext] structure DB where
  next_id : Int
  chunks : List ChunkRow
  tfidf_vectors : List VecRow
  idf_scores : List IdfRow

/-- A freshly created database (`_create_tables`). -/
def emptyDB : DB := ⟨1, [], [], []⟩

/-- Number of chunk rows (`COUNT(*) FROM chunks` in `get_stats`). -/
def chunk_count (db : DB) : Nat := db.chunks.length

/-- Size of the IDF table (`COUNT(*) FROM idf_scores` in `get_stats`). -/
def unique_terms (db : DB) : Nat := db.idf_scores.length

/-- The terms present in the IDF table. -/
def idfTerms (db : DB) : List String := db.idf_scores.map (fun r => r.term)

/-- The stored tfidf weight of a (chunk, term) pair, when present. -/
def getTfidf (db : DB) (cid : Int) (t : String) : Option ℝ :=
  (db.tfidf_vectors.find? (fun v => v.chunk_id == cid && v.term == t)).map (fun v => v.tfidf)

/-! ## IDF maintenance (`_update_idf_scores`) -/

/-- Accumulator pass of first-occurrence deduplication; `seen` collects the
values already emitted. -/
def firstOccsGo {α : Type} [DecidableEq α] (seen : List α) : List α → List α
  | [] => []
  | a :: rest =>
    if seen.contains a then firstOccsGo seen rest
    else a :: firstOccsGo (seen ++ [a]) rest

/-- First-occurrence deduplication (`COUNT(DISTINCT ...)` / `GROUP BY` keys;
SQL leaves the group order unspecified, we fix first-occurrence order). -/
def firstOccs {α : Type} [DecidableEq α] (l : List α) : List α :=
  firstOccsGo [] l

/-- `COUNT(DISTINCT chunk_id)` for one term of `tfidf_vectors`. -/
def distinctChunkCount (vecs : List VecRow) (t : String) : Nat :=
  (firstOccs ((vecs.filter (fun v => v.term = t)).map (fun v => v.chunk_id))).length

/-- The grouped rows computed by the `INSERT OR REPLACE ... GROUP BY term`
query of `_update_idf_scores`: one row per distinct term with
`doc_freq = COUNT(DISTINCT chunk_id)` and `idf = LN(total / doc_freq)`
(DuckDB `/` on integers is float division). -/
noncomputable def idfGroups (total : Nat) (vecs : List VecRow) : List IdfRow :=
  (firstOccs (vecs.map (fun v => v.term))).map (fun t =>
    ⟨t, (distinctChunkCount vecs t : Int),
      Real.log ((total : ℝ) / (distinctChunkCount vecs t : ℝ))⟩)

/-- Effect of `INSERT OR REPLACE INTO idf_scores` on the table: rows whose
term is grouped are replaced in place, new terms are appended (the grouped
terms are pairwise distinct, so the order of insertion does not matter). -/
noncomputable def replaceInto (old new : List IdfRow) : List IdfRow :=
  old.map (fun o => ((new.find? (fun n => n.term = o.term)).getD o))
    ++ new.filter (fun n => !(old.any (fun o => o.term = n.term)))

/-- Embedding of `_update_idf_scores`: no-op on an empty corpus, otherwise
recompute the IDF table and refresh `tfidf = tf * idf_score` for every vector
row.  The SQL scalar subquery would give NULL for a term without an IDF row;
after the insert every vector term has one, so the `getD 0` default is
unreachable there. -/
noncomputable def update_idf_scores (db : DB) : DB :=
  if db.chunks.length = 0 then db
  else
    let newIdf := replaceInto db.idf_scores (idfGroups db.chunks.length db.tfidf_vectors)
    { db with
      idf_scores := newIdf,
      tfidf_vectors := db.tfidf_vectors.map (fun v =>
        { v with tfidf := v.tf *
            (((newIdf.find? (fun r => r.term = v.term)).map (fun r => r.idf_score)).getD 0) }) }

/-! ## Adding a document (`add_markdown_file`) -/

/-- The chunk rows inserted by `add_markdown_file`: one row per chunk, in
order, with ids drawn consecutively from the sequence and
`chunk_index` from `enumerate`. -/
def mkChunkRows (path : String) : Int → Int → List (String × Nat) → List ChunkRow
  | _, _, [] => []
  | nid, idx, (text, tc) :: rest =>
    ⟨nid, path, text, idx, (tc : Int)⟩ :: mkChunkRows path (nid + 1) (idx + 1) rest

/-- The vector rows inserted by `add_markdown_file`: for each chunk in order,
one row per term of its tf dict, with the initial `tfidf = tf`. -/
noncomputable def mkVecRows : Int → List (List (String × ℝ)) → List VecRow
  | _, [] => []
  | nid, tfs :: rest => tfs.map (fun p => ⟨nid, p.1, p.2, p.2⟩) ++ mkVecRows (nid + 1) rest

/-- The store state right after the row insertions of `add_markdown_file`
(chunk rows and initial `tfidf = tf` vector rows appended, sequence
advanced), before the IDF recompute. -/
noncomputable def insertState (db : DB) (file_path : String) (chunks : List String) : DB :=
  let token_lists := chunks.map tokenize
  let tfs := token_lists.map calculate_tf
  { next_id := db.next_id + chunks.length,
    chunks := db.chunks ++ mkChunkRows file_path db.next_id 0
      (chunks.zip (token_lists.map (fun l => l.length))),
    tfidf_vectors := db.tfidf_vectors ++ mkVecRows db.next_id tfs,
    idf_scores := db.idf_scores }

/-- Embedding of `add_markdown_file`: the file content is passed explicitly
(the Python reads it from `file_path`; the path doubles as the source
identifier).  Chunk, tokenize, compute tf, insert the chunk rows and vector
rows, then recompute IDF in bulk. -/
noncomputable def add_markdown_file (fuel : Nat) (db : DB) (file_path content : String)
    (csz ov : Int) : Except String (Option DB) :=
  match chunk_markdown fuel content csz ov with
  | .error e => .error e
  | .ok none => .ok none
  | .ok (some chunks) => .ok (some (update_idf_scores (insertState db file_path chunks)))

/-! ## Update modes (spec-modelled; the mode-aware service is not under src/) -/

/-- Update mode of the add pipeline. -/
inductive Mode
  | replace
  | skip
  deriving DecidableEq

/-- Modelled from the spec: `has_source(source) -> bool`, the existence check
used by skip mode, is part of the mode-aware `SearchService` that `main.py`
imports but whose module is not under `src/`. -/
def has_source (db : DB) (source : String) : Bool :=
  db.chunks.any (fun c => c.source_file == source)

/-- Modelled from the spec: `remove_source(source)` deletes all chunks of the
source and their term-weight entries (cascading); part of the mode-aware
service missing from `src/`. -/
def remove_source (db : DB) (source : String) : DB :=
  { db with
    chunks := db.chunks.filter (fun c => !(c.source_file == source)),
    tfidf_vectors := db.tfidf_vectors.filter (fun v =>
      !(db.chunks.any (fun c => c.source_file == source && c.id == v.chunk_id))) }

/-- Modelled from the spec: the mode-aware add operation
(`add_markdown_file(..., mode=...)` called from `main.py`, implemented in the
`SearchService` module not under `src/`).  Spec section 4.6: `replace` removes
an existing source first and reruns the pipeline; `skip` does nothing and
reports "skipped" (returned flag `false`) when the source already exists, and
otherwise behaves as replace's insertion half, which is exactly the
`src/service.py` add pipeline. -/
noncomputable def add_markdown_file_mode (fuel : Nat) (db : DB) (file_path content : String)
    (csz ov : Int) : Mode → Except String (Option (DB × Bool))
  | .skip =>
    if has_source db file_path then .ok (some (db, false))
    else (add_markdown_file fuel db file_path content csz ov).map
      (fun o => o.map (fun d => (d, true)))
  | .replace =>
    (add_markdown_file fuel (remove_source db file_path) file_path content csz ov).map
      (fun o => o.map (fun d => (d, true)))

/-! ## Search (`MarkdownSemanticSearch.search`) -/

/-- Python dict read with a default. -/
def lookupD (l : List (String × ℝ)) (k : String) (d : ℝ) : ℝ :=
  match l.find? (fun p => p.1 = k) with
  | some p => p.2
  | none => d

/-- Python dict write: overwrite in place if the key exists, else append. -/
def dictInsert (l : List (String × ℝ)) (k : String) (v : ℝ) : List (String × ℝ) :=
  match l with
  | [] => [(k, v)]
  | p :: rest => if p.1 = k then (k, v) :: rest else p :: dictInsert rest k v

/-- Stable insertion for descending order by key: the new element goes in
front of the first strictly smaller element. -/
noncomputable def insertDesc (key : α → ℝ) (x : α) : List α → List α
  | [] => [x]
  | y :: ys => if key y < key x then x :: y :: ys else y :: insertDesc key x ys

/-- Stable sort, descending by key (`ORDER BY similarity DESC`; SQL leaves
the order of ties unspecified, we fix a stable sort). -/
noncomputable def sortDesc (key : α → ℝ) : List α → List α
  | [] => []
  | x :: xs => insertDesc key x (sortDesc key xs)

/-- The query vector of `search`: the dict comprehension
`{term: query_tf[term] * idf for term, idf in query_tfidf}`, where
`query_tfidf` is the filter of the IDF table to the `query_tf` keys
(the `SELECT term, idf_score ... WHERE term IN (...)` lookup). -/
noncomputable def queryVector (db : DB) (qtf : List (String × ℝ)) : List (String × ℝ) :=
  (db.idf_scores.filter (fun r => (qtf.map Prod.fst).contains r.term)).foldl
    (fun d r => dictInsert d r.term (lookupD qtf r.term 0 * r.idf_score)) []

/-- The scored candidate rows of the search SQL: group the `tfidf_vectors`
rows whose term is a query-vector key by `chunk_id`, compute
`dot = SUM(tfidf)` and `magnitude = SQRT(SUM(tfidf * tfidf))` per group, drop
groups with zero magnitude, and join with `chunks` to form the
`(chunk_text, similarity, source_file)` triples. -/
noncomputable def scoredChunks (db : DB) (qv : List (String × ℝ)) (qmag : ℝ) :
    List (String × ℝ × String) :=
  let vkeys := qv.map Prod.fst
  let rows := db.tfidf_vectors.filter (fun v => vkeys.contains v.term)
  let gids := firstOccs (rows.map (fun v => v.chunk_id))
  gids.filterMap (fun cid =>
    let sub := rows.filter (fun v => v.chunk_id = cid)
    let dot := (sub.map (fun v => v.tfidf)).sum
    let mag := Real.sqrt ((sub.map (fun v => v.tfidf * v.tfidf)).sum)
    match db.chunks.find? (fun c => c.id = cid) with
    | some c =>
      if 0 < mag then some (c.chunk_text, dot / (qmag * mag), c.source_file)
      else none
    | none => none)

/-- Embedding of the body of `search` after query tokenization.  The
`IN ({})` clause is built with `len(query_tokens)` placeholders but bound to
the `len(query_tf)` distinct keys; DuckDB raises when the two counts differ,
which the embedding models as an `Except.error`.  Otherwise the query vector
is built from the pre-computed IDF table, the candidates are scored, sorted
by similarity descending and truncated by `LIMIT top_k`. -/
noncomputable def searchCore (db : DB) (qt : List String) (k : Nat) :
    Except String (List (String × ℝ × String)) :=
  if qt = [] then .ok []
  else
    let qtf := calculate_tf qt
    if qtf.length = qt.length then
      let qv := queryVector db qtf
      if qv = [] then .ok []
      else
        .ok ((sortDesc (fun r => r.2.1)
          (scoredChunks db qv (Real.sqrt ((qv.map (fun p => p.2 ^ 2)).sum)))).take k)
    else .error "prepared statement parameter count mismatch"

/-- Embedding of `search`, with the source's default `top_k = 5`. -/
noncomputable def search (db : DB) (q : String) (k : Nat := 5) :
    Except String (List (String × ℝ × String)) :=
  searchCore db (tokenize q) k

/-- Length of a search result, zero for an error. -/
def resLen : Except String (List (String × ℝ × String)) → Nat
  | .ok l => l.length
  | .error _ => 0

/-! ## Claim-side description of search

The following definitions restate, in the spec's own vocabulary, what the
search result is claimed to be; the refinement theorem below compares them
with the embedding of the code. -/

/-- Whether a term has an entry in the corpus's IDF table. -/
def hasIdf (db : DB) (t : String) : Bool :=
  db.idf_scores.any (fun r => r.term = t)

/-- The IDF value of a term, read from the IDF table. -/
noncomputable def idfLookup (db : DB) (t : String) : ℝ :=
  ((db.idf_scores.find? (fun r => r.term = t)).map (fun r => r.idf_score)).getD 0

/-- Query term frequency: occurrence count over total query tokens. -/
noncomputable def specQueryTf (qt : List String) (t : String) : ℝ :=
  (qt.count t : ℝ) / (qt.length : ℝ)

/-- The surviving query terms: the distinct query tokens that have an entry
in the IDF table. -/
def specSurvivors (db : DB) (qt : List String) : List String :=
  (firstOccs qt).filter (fun t => hasIdf db t)

/-- Query magnitude: square root of the sum over surviving terms of
`(query_tf * idf)^2`. -/
noncomputable def specQueryMag (db : DB) (qt : List String) : ℝ :=
  Real.sqrt (((specSurvivors db qt).map
    (fun t => (specQueryTf qt t * idfLookup db t) ^ 2)).sum)

/-- The term-weight entries of one chunk. -/
def chunkVecs (db : DB) (cid : Int) : List VecRow :=
  db.tfidf_vectors.filter (fun v => v.chunk_id = cid)

/-- The entries of a chunk for the terms it shares with the query's
surviving terms. -/
def sharedVecs (db : DB) (qt : List String) (cid : Int) : List VecRow :=
  (chunkVecs db cid).filter (fun v => (specSurvivors db qt).contains v.term)

/-- Sum over shared terms of the chunk's stored tfidf. -/
noncomputable def specDot (db : DB) (qt : List String) (cid : Int) : ℝ :=
  ((sharedVecs db qt cid).map (fun v => v.tfidf)).sum

/-- Square root of the sum over shared terms of the chunk's tfidf squared. -/
noncomputable def specChunkMag (db : DB) (qt : List String) (cid : Int) : ℝ :=
  Real.sqrt (((sharedVecs db qt cid).map (fun v => v.tfidf ^ 2)).sum)

/-- Claimed similarity: dot over (query magnitude times partial chunk
magnitude). -/
noncomputable def specSimilarity (db : DB) (qt : List String) (cid : Int) : ℝ :=
  specDot db qt cid / (specQueryMag db qt * specChunkMag db qt cid)

open Classical in
/-- The scored candidates: every chunk sharing at least one surviving query
term, skipping chunks whose partial magnitude is zero, as
`(chunk_text, similarity, source)` triples. -/
noncomputable def specCandidates (db : DB) (qt : List String) : List (String × ℝ × String) :=
  db.chunks.filterMap (fun c =>
    if sharedVecs db qt c.id ≠ [] ∧ 0 < specChunkMag db qt c.id then
      some (c.chunk_text, specSimilarity db qt c.id, c.source_file)
    else none)

/-- The claimed search result: candidates sorted by similarity descending,
truncated to `top_k`. -/
noncomputable def specSearch (db : DB) (q : String) (k : Nat) : List (String × ℝ × String) :=
  (sortDesc (fun r => r.2.1) (specCandidates db (tokenize q))).take k

/-! ## Concrete corpora, built by the add pipeline from an empty store -/

/-- Store after indexing "dogs dogs dogs" from source `a.md`. -/
noncomputable def dbA : DB :=
  ⟨2, [⟨1, "a.md", "dogs dogs dogs", 0, 3⟩],
   [⟨1, "dogs", ((3 : ℕ) : ℝ) / ((3 : ℕ) : ℝ),
     (((3 : ℕ) : ℝ) / ((3 : ℕ) : ℝ)) * Real.log (((1 : ℕ) : ℝ) / ((1 : ℕ) : ℝ))⟩],
   [⟨"dogs", 1, Real.log (((1 : ℕ) : ℝ) / ((1 : ℕ) : ℝ))⟩]⟩

/-- Adding `a.md` to the empty store yields `dbA`. -/
theorem addA_eq : add_markdown_file 100 emptyDB "a.md" "dogs dogs dogs" 500 100 =
    .ok (some dbA) := rfl

/-- Store after additionally indexing "cats cats" from source `b.md`:
the total chunk count is now 2, so the IDF of `dogs` changes from
`ln(1/1)` to `ln(2/1)` and the stored tfidf of the `a.md` row is refreshed. -/
noncomputable def dbAB : DB :=
  ⟨3, [⟨1, "a.md", "dogs dogs dogs", 0, 3⟩, ⟨2, "b.md", "cats cats", 0, 2⟩],
   [⟨1, "dogs", ((3 : ℕ) : ℝ) / ((3 : ℕ) : ℝ),
     (((3 : ℕ) : ℝ) / ((3 : ℕ) : ℝ)) * Real.log (((2 : ℕ) : ℝ) / ((1 : ℕ) : ℝ))⟩,
    ⟨2, "cats", ((2 : ℕ) : ℝ) / ((2 : ℕ) : ℝ),
     (((2 : ℕ) : ℝ) / ((2 : ℕ) : ℝ)) * Real.log (((2 : ℕ) : ℝ) / ((1 : ℕ) : ℝ))⟩],
   [⟨"dogs", 1, Real.log (((2 : ℕ) : ℝ) / ((1 : ℕ) : ℝ))⟩,
    ⟨"cats", 1, Real.log (((2 : ℕ) : ℝ) / ((1 : ℕ) : ℝ))⟩]⟩

/-- Adding `b.md` to `dbA` yields `dbAB`. -/
theorem addB_eq : add_markdown_file 100 dbA "b.md" "cats cats" 500 100 =
    .ok (some dbAB) := rfl

/-- Shorthand reals for the five-chunk corpus below. -/
noncomputable def tfOne : ℝ := ((1 : ℕ) : ℝ) / ((1 : ℕ) : ℝ)

/-- IDF value `ln(4/4)`. -/
noncomputable def idf44 : ℝ := Real.log (((4 : ℕ) : ℝ) / ((4 : ℕ) : ℝ))

/-- IDF value `ln(5/4)`. -/
noncomputable def idf54 : ℝ := Real.log (((5 : ℕ) : ℝ) / ((4 : ℕ) : ℝ))

/-- IDF value `ln(5/1)`. -/
noncomputable def idf51 : ℝ := Real.log (((5 : ℕ) : ℝ) / ((1 : ℕ) : ℝ))

/-- Store after indexing "dogs dogs dogs dogs" from `a.md` with
`chunk_size=5, overlap=0`: four one-token chunks, each containing `dogs`. -/
noncomputable def dbD1 : DB :=
  ⟨5, [⟨1, "a.md", "dogs", 0, 1⟩, ⟨2, "a.md", "dogs", 1, 1⟩,
       ⟨3, "a.md", "dogs", 2, 1⟩, ⟨4, "a.md", "dogs", 3, 1⟩],
   [⟨1, "dogs", tfOne, tfOne * idf44⟩, ⟨2, "dogs", tfOne, tfOne * idf44⟩,
    ⟨3, "dogs", tfOne, tfOne * idf44⟩, ⟨4, "dogs", tfOne, tfOne * idf44⟩],
   [⟨"dogs", 4, idf44⟩]⟩

/-- Adding the four-chunk document to the empty store yields `dbD1`. -/
theorem addD1_eq : add_markdown_file 100 emptyDB "a.md" "dogs dogs dogs dogs" 5 0 =
    .ok (some dbD1) := rfl

/-- Store after additionally indexing "cats" from `b.md`: five chunks in
total, four of which contain `dogs` (so its IDF `ln(5/4)` is positive). -/
noncomputable def dbD2 : DB :=
  ⟨6, [⟨1, "a.md", "dogs", 0, 1⟩, ⟨2, "a.md", "dogs", 1, 1⟩,
       ⟨3, "a.md", "dogs", 2, 1⟩, ⟨4, "a.md", "dogs", 3, 1⟩,
       ⟨5, "b.md", "cats", 0, 1⟩],
   [⟨1, "dogs", tfOne, tfOne * idf54⟩, ⟨2, "dogs", tfOne, tfOne * idf54⟩,
    ⟨3, "dogs", tfOne, tfOne * idf54⟩, ⟨4, "dogs", tfOne, tfOne * idf54⟩,
    ⟨5, "cats", tfOne, tfOne * idf51⟩],
   [⟨"dogs", 4, idf54⟩, ⟨"cats", 1, idf51⟩]⟩

/-- Adding `b.md` to `dbD1` yields `dbD2`. -/
theorem addD2_eq : add_markdown_file 100 dbD1 "b.md" "cats" 5 0 = .ok (some dbD2) := rfl

/-! ## List utilities -/

/-- Boolean `contains` agrees with membership. -/
theorem contains_iff_mem {α : Type} [BEq α] [LawfulBEq α] (l : List α) (a : α) :
    l.contains a = true ↔ a ∈ l := List.elem_iff

/-- Incrementing a fresh key appends it with count 1. -/
theorem dictIncr_fresh (acc : List (String × Nat)) (t : String)
    (h : ∀ p ∈ acc, p.1 ≠ t) : dictIncr acc t = acc ++ [(t, 1)] := by
  induction acc with
  | nil => rfl
  | cons p rest ih =>
    have hp : ¬(p.1 = t) := h p (by simp)
    simp only [dictIncr, if_neg hp, List.cons_append, List.cons.injEq, true_and]
    exact ih (fun q hq => h q (by simp [hq]))

/-- Counting duplicate-free tokens appends a count-1 entry per token. -/
theorem foldl_dictIncr_fresh :
    ∀ (l : List String) (acc : List (String × Nat)),
      l.Nodup → (∀ t ∈ l, ∀ p ∈ acc, p.1 ≠ t) →
      l.foldl dictIncr acc = acc ++ l.map (fun t => (t, 1)) := by
  intro l
  induction l with
  | nil => intro acc _ _; simp
  | cons t rest ih =>
    intro acc hnd hfresh
    simp only [List.foldl_cons]
    rw [dictIncr_fresh acc t (hfresh t (by simp))]
    rw [ih (acc ++ [(t, 1)]) hnd.of_cons ?_]
    · simp
    · intro u hu p hp
      rcases List.mem_append.mp hp with h1 | h2
      · exact hfresh u (by simp [hu]) p h1
      · have hpt : p = (t, 1) := by simpa using h2
        subst hpt
        intro hcontra
        have : t = u := hcontra
        exact (List.nodup_cons.mp hnd).1 (this ▸ hu)

/-- `Counter` on a duplicate-free token list is the list of count-1 pairs. -/
theorem counter_nodup (l : List String) (h : l.Nodup) :
    counter l = l.map (fun t => (t, 1)) := by
  simpa using foldl_dictIncr_fresh l [] h (by simp)

/-- `calculate_tf` on a duplicate-free token list. -/
theorem calculate_tf_nodup (l : List String) (h : l.Nodup) (hne : l ≠ []) :
    calculate_tf l = l.map (fun t => (t, ((1 : ℕ) : ℝ) / ((l.length : ℕ) : ℝ))) := by
  simp only [calculate_tf, if_neg hne, counter_nodup l h, List.map_map]
  rfl

/-! ## Claim C2: search never raises -/

/-- Claim C2 (code bug).  The `IN` clause of `search` is built with one
placeholder per query token but bound to the distinct `query_tf` keys, so any
query whose token sequence repeats a token makes the prepared statement fail:
for every database state, searching for "apple apple" raises instead of
returning a (possibly empty) ordered sequence. -/
theorem C2_duplicate_token_query_errors :
    ∀ (db : DB) (k : Nat),
      search db "apple apple" k = .error "prepared statement parameter count mismatch" :=
  fun _ _ => rfl

/-! ## Claim C3: termination of chunk_markdown -/

/-- The diverging input text for the chunker. -/
def c3text : List Char := "ab ccccccc".toList

/-- The state the chunker loop gets stuck in on `c3text` with
`chunk_size=2, overlap=1`: the tentative end `start+2 = 4` snaps back to the
boundary after the space (position 3), and `start = 3 - overlap = 2` again. -/
def c3stuck : CState := ⟨["ab"], 2⟩

/-- The first iteration reaches the stuck state. -/
theorem c3step_init : chunkStep c3text 2 1 ⟨[], 0⟩ = Sum.inl c3stuck := rfl

/-- The stuck state steps to itself: the loop never exits. -/
theorem c3step_stuck : chunkStep c3text 2 1 c3stuck = Sum.inl c3stuck := rfl

/-- No amount of fuel finishes the loop from the stuck state. -/
theorem c3run_stuck : ∀ n, chunkRun c3text 2 1 n c3stuck = none := by
  intro n
  induction n with
  | zero => rfl
  | succ n ih =>
    calc chunkRun c3text 2 1 (n + 1) c3stuck
        = chunkRun c3text 2 1 n c3stuck := rfl
      _ = none := ih

/-- Claim C3 (code bug).  `chunk_markdown` does not terminate for every valid
parameter pair: on the text "ab ccccccc" with `chunk_size=2, overlap=1`
(valid: `2 > 0`, `0 ≤ 1 < 2`) the loop repeats the state `start=2` forever,
so no fuel bound ever produces a result. -/
theorem C3_chunk_loop_diverges :
    ∀ fuel : Nat, chunk_markdown fuel "ab ccccccc" 2 1 = .ok none := by
  intro fuel
  match fuel with
  | 0 => rfl
  | n + 1 =>
    calc chunk_markdown (n + 1) "ab ccccccc" 2 1
        = .ok (chunkRun c3text 2 1 n c3stuck) := rfl
      _ = .ok none := by rw [c3run_stuck n]

/-! ## Claim C8: chunking parameter validation -/

/-- Whether a chunking call raised. -/
def isErr : Except String (Option (List String)) → Bool
  | .error _ => true
  | .ok _ => false

/-- Claim C8 (confirmed).  `chunk_markdown` raises exactly when
`chunk_size ≤ 0`, or `overlap < 0`, or `overlap ≥ chunk_size` (hence in
particular for `chunk_size=0`, `overlap=-1` and `overlap=chunk_size`), and
never raises such an error for any other parameter pair. -/
theorem C8_parameter_validation :
    ∀ (fuel : Nat) (text : String) (csz ov : Int),
      isErr (chunk_markdown fuel text csz ov) = true ↔ (csz ≤ 0 ∨ ov < 0 ∨ csz ≤ ov) := by
  intro fuel text csz ov
  simp only [chunk_markdown]
  split_ifs with h1 h2 h3 <;> simp [isErr] <;> omega

/-- Witness for C8 at the three inputs named by the claim:
`chunk_size=0`, `overlap=-1`, and `overlap=chunk_size=7`. -/
theorem C8_parameter_validation_witness :
    isErr (chunk_markdown 1 "x" 0 0) = true ∧
    isErr (chunk_markdown 1 "x" 9 (-1)) = true ∧
    isErr (chunk_markdown 1 "x" 7 7) = true ∧
    isErr (chunk_markdown 1 "x" 7 2) = false := by
  refine ⟨?_, ?_, ?_, ?_⟩
  · exact (C8_parameter_validation 1 "x" 0 0).mpr (Or.inl (by norm_num))
  · exact (C8_parameter_validation 1 "x" 9 (-1)).mpr (Or.inr (Or.inl (by norm_num)))
  · exact (C8_parameter_validation 1 "x" 7 7).mpr (Or.inr (Or.inr (by norm_num)))
  · have h := (C8_parameter_validation 1 "x" 7 2)
    rcases hb : isErr (chunk_markdown 1 "x" 7 2) with _ | _
    · rfl
    · exact absurd (h.mp hb) (by norm_num)

/-! ## Claim C10: shape of the tokenizer output -/

/-- Claim C10 (confirmed).  Every token is a whole maximal word run of the
lowercased text, consists solely of lowercase letters, has length at least 3
and is not a stop word; a maximal word mixing letters with digits or
underscores contributes no token at all ("abc123" and "abc_def" tokenize to
nothing — letter runs are never salvaged out of such words). -/
theorem C10_tokenizer_shape :
    (∀ (s t : String), t ∈ tokenize s →
        t.data ≠ [] ∧ t.data.all isLowerAZ = true ∧ 3 ≤ t.data.length ∧
        t ∉ stop_words ∧ t.data ∈ wordRuns (s.toList.map Char.toLower)) ∧
    tokenize "abc123" = [] ∧ tokenize "abc_def" = [] := by
  refine ⟨?_, by decide, by decide⟩
  intro s t ht
  simp only [tokenize, List.mem_filter, List.mem_map] at ht
  obtain ⟨⟨r, hr, hmk⟩, hstop⟩ := ht
  obtain ⟨hrmem, hp⟩ := hr
  rw [Bool.and_eq_true, decide_eq_true_eq] at hp
  have hdata : t.data = r := by rw [← hmk]
  refine ⟨?_, ?_, ?_, ?_, ?_⟩
  · rw [hdata]
    intro hnil
    rw [hnil] at hp
    exact absurd hp.2 (by norm_num)
  · rw [hdata]; exact hp.1
  · rw [hdata]; exact hp.2
  · intro hmem
    rw [Bool.not_eq_eq_eq_not, Bool.not_true] at hstop
    rw [← contains_iff_mem] at hmem
    rw [hmem] at hstop
    cases hstop
  · rw [hdata]; exact hrmem

/-- Witness for C10: the token "hello" of the text "Hello world!". -/
theorem C10_tokenizer_shape_witness :
    "hello".data ≠ [] ∧ "hello".data.all isLowerAZ = true ∧ 3 ≤ "hello".data.length ∧
    "hello" ∉ stop_words ∧
    "hello".data ∈ wordRuns ("Hello world!".toList.map Char.toLower) :=
  C10_tokenizer_shape.1 "Hello world!" "hello" (by decide)

/-! ## Claim C7: empty-result cases of search -/

/-- Claim C7 as stated is false: a query with a repeated token that has no
IDF entry raises the prepared-statement error instead of returning the empty
result sequence ("test test" on the empty store). -/
theorem C7_counterexample :
    search emptyDB "test test" 3 = .error "prepared statement parameter count mismatch" ∧
    (∀ t ∈ tokenize "test test", t ∉ idfTerms emptyDB) ∧ tokenize "test test" ≠ [] :=
  ⟨rfl, by decide, by decide⟩

/-- Claim C7 as amended (restricted to duplicate-free queries in the second
case).  If the query tokenizes to nothing, search returns the empty sequence;
and if the tokenized query has no repeated token and none of its tokens has
an entry in the IDF table, search also returns the empty sequence — neither
case is an error. -/
theorem C7_amended_empty_results :
    ∀ (db : DB) (q : String) (k : Nat),
      (tokenize q = [] → search db q k = .ok []) ∧
      ((tokenize q).Nodup → (∀ t ∈ tokenize q, t ∉ idfTerms db) →
        search db q k = .ok []) := by
  intro db q k
  constructor
  · intro h
    simp only [search, h]
    rfl
  · intro hnd habs
    by_cases hq : tokenize q = []
    · simp only [search, hq]; rfl
    · simp only [search, searchCore, if_neg hq]
      have hctf := calculate_tf_nodup (tokenize q) hnd hq
      have hlen : (calculate_tf (tokenize q)).length = (tokenize q).length := by
        rw [hctf, List.length_map]
      rw [if_pos hlen]
      have hkeys : (calculate_tf (tokenize q)).map Prod.fst = tokenize q := by
        rw [hctf, List.map_map]
        exact List.map_id _
      have hsurv : db.idf_scores.filter
          (fun r => ((calculate_tf (tokenize q)).map Prod.fst).contains r.term) = [] := by
        rw [List.filter_eq_nil_iff]
        intro r hrmem hc
        rw [hkeys, contains_iff_mem] at hc
        exact habs r.term hc (List.mem_map_of_mem (fun x => x.term) hrmem)
      have hqv : queryVector db (calculate_tf (tokenize q)) = [] := by
        rw [queryVector, hsurv]
        rfl
      rw [hqv, if_pos rfl]

/-- Witness for C7: a stop-word query on the empty store, and a fresh
single-token query on the one-document store `dbA`. -/
theorem C7_amended_empty_results_witness :
    search emptyDB "the" 3 = .ok [] ∧ search dbA "zebra" 3 = .ok [] :=
  ⟨(C7_amended_empty_results emptyDB "the" 3).1 (by decide),
   (C7_amended_empty_results dbA "zebra" 3).2 (by decide) (by decide)⟩

/-! ## Lemmas about the IDF recompute -/

/-- The IDF recompute never touches the `chunks` table. -/
theorem update_idf_chunks (d : DB) : (update_idf_scores d).chunks = d.chunks := by
  simp only [update_idf_scores]
  split <;> rfl

/-- `COUNT(DISTINCT chunk_id)` only looks at the `term` and `chunk_id`
columns, so a map preserving them (such as the tfidf refresh) leaves it
unchanged. -/
theorem distinctChunkCount_map (vecs : List VecRow) (g : VecRow → VecRow)
    (hterm : ∀ v, (g v).term = v.term) (hcid : ∀ v, (g v).chunk_id = v.chunk_id)
    (t : String) : distinctChunkCount (vecs.map g) t = distinctChunkCount vecs t := by
  simp only [distinctChunkCount]
  have h1 : (vecs.map g).filter (fun v => v.term = t) =
      (vecs.filter (fun v => v.term = t)).map g := by
    rw [List.filter_map]
    congr 1
    apply List.filter_congr
    intro v _
    simp [Function.comp, hterm v]
  rw [h1, List.map_map]
  have h2 : (fun v => (g v).chunk_id) = (fun v : VecRow => v.chunk_id) := by
    funext v
    exact hcid v
  rw [Function.comp_def, h2]

/-- `idfGroups` only looks at the `term` and `chunk_id` columns, so a map
that preserves them (such as the tfidf refresh) leaves the groups
unchanged. -/
theorem idfGroups_map (total : Nat) (vecs : List VecRow) (g : VecRow → VecRow)
    (hterm : ∀ v, (g v).term = v.term) (hcid : ∀ v, (g v).chunk_id = v.chunk_id) :
    idfGroups total (vecs.map g) = idfGroups total vecs := by
  have hterms : (vecs.map g).map (fun v => v.term) = vecs.map (fun v => v.term) := by
    rw [List.map_map]
    exact List.map_congr_left (fun v _ => hterm v)
  simp only [idfGroups, hterms]
  apply List.map_congr_left
  intro t _
  rw [distinctChunkCount_map vecs g hterm hcid]

/-- Length of the table after `INSERT OR REPLACE`. -/
theorem replaceInto_length (old new : List IdfRow) :
    (replaceInto old new).length =
      old.length + (new.filter (fun n => !(old.any (fun o => o.term = n.term)))).length := by
  simp [replaceInto]

/-- Every grouped row has a representative (same term) in the table after
`INSERT OR REPLACE`. -/
theorem replaceInto_covers (old new : List IdfRow) (n : IdfRow) (hn : n ∈ new) :
    ∃ r ∈ replaceInto old new, r.term = n.term := by
  by_cases hold : old.any (fun o => o.term = n.term) = true
  · obtain ⟨o, ho, hot⟩ := List.any_eq_true.mp hold
    have hsome : (new.find? (fun m => m.term = o.term)).isSome := by
      rw [List.find?_isSome]
      exact ⟨n, hn, by simp [of_decide_eq_true hot]⟩
    obtain ⟨m, hm⟩ := Option.isSome_iff_exists.mp hsome
    refine ⟨m, ?_, ?_⟩
    · apply List.mem_append_left
      have : ((new.find? (fun m => m.term = o.term)).getD o) ∈
          old.map (fun o => (new.find? (fun m => m.term = o.term)).getD o) :=
        List.mem_map_of_mem _ ho
      rwa [hm, Option.getD_some] at this
    · have := List.find?_some hm
      rw [decide_eq_true_eq] at this
      rw [this, of_decide_eq_true hot]
  · refine ⟨n, ?_, rfl⟩
    apply List.mem_append_right
    rw [List.mem_filter]
    exact ⟨hn, by simp [hold]⟩

/-- Boolean version of `replaceInto_covers`. -/
theorem replaceInto_covers_any (old new : List IdfRow) (n : IdfRow) (hn : n ∈ new) :
    (replaceInto old new).any (fun o => o.term = n.term) = true := by
  obtain ⟨r, hr, hrt⟩ := replaceInto_covers old new n hn
  exact List.any_eq_true.mpr ⟨r, hr, by simp [hrt]⟩

/-- Running the IDF recompute twice does not change the number of distinct
terms: the second pass computes the same groups and replaces every row in
place. -/
theorem update_idf_pos (d : DB) (h : ¬d.chunks.length = 0) :
    update_idf_scores d =
      { d with
        idf_scores := replaceInto d.idf_scores (idfGroups d.chunks.length d.tfidf_vectors),
        tfidf_vectors := d.tfidf_vectors.map (fun v =>
          { v with tfidf := v.tf *
              ((((replaceInto d.idf_scores (idfGroups d.chunks.length d.tfidf_vectors)).find?
                (fun r => r.term = v.term)).map (fun r => r.idf_score)).getD 0) }) } := by
  simp only [update_idf_scores, if_neg h]

/-- Running the IDF recompute twice does not change the number of distinct
terms: the second pass computes the same groups and replaces every row in
place. -/
theorem unique_terms_update_idem (d : DB) :
    unique_terms (update_idf_scores (update_idf_scores d)) =
      unique_terms (update_idf_scores d) := by
  by_cases h : d.chunks.length = 0
  · simp only [update_idf_scores, if_pos h]
  · set N := update_idf_scores d with hN
    have hchunks : N.chunks = d.chunks := update_idf_chunks d
    have hidf1 : N.idf_scores =
        replaceInto d.idf_scores (idfGroups d.chunks.length d.tfidf_vectors) := by
      rw [hN, update_idf_pos d h]
    have hvecs : N.tfidf_vectors = d.tfidf_vectors.map
        (fun v => { v with tfidf := v.tf *
          ((((replaceInto d.idf_scores (idfGroups d.chunks.length d.tfidf_vectors)).find?
            (fun r => r.term = v.term)).map (fun r => r.idf_score)).getD 0) }) := by
      rw [hN, update_idf_pos d h]
    have h2 : ¬(N.chunks.length = 0) := by rw [hchunks]; exact h
    have hG : idfGroups N.chunks.length N.tfidf_vectors =
        idfGroups d.chunks.length d.tfidf_vectors := by
      rw [hchunks, hvecs]
      exact idfGroups_map _ _ _ (fun v => rfl) (fun v => rfl)
    rw [update_idf_pos N h2]
    simp only [unique_terms, hG, replaceInto_length]
    have hfil : (idfGroups d.chunks.length d.tfidf_vectors).filter
        (fun n => !(N.idf_scores.any (fun o => o.term = n.term))) = [] := by
      rw [List.filter_eq_nil_iff]
      intro n hn hb
      rw [hidf1] at hb
      rw [replaceInto_covers_any _ _ n hn] at hb
      exact absurd hb (by simp)
    rw [hfil]
    simp

/-! ## Claim C4: idempotence of skip mode -/

/-- Each inserted chunk row carries the source path. -/
theorem mkChunkRows_source :
    ∀ (items : List (String × Nat)) (path : String) (nid idx : Int),
      ∀ c ∈ mkChunkRows path nid idx items, c.source_file = path := by
  intro items
  induction items with
  | nil => intro path nid idx c hc; cases hc
  | cons p rest ih =>
    intro path nid idx c hc
    rcases hc with _ | ⟨_, hc⟩
    · rfl
    · exact ih path (nid + 1) (idx + 1) c hc

/-- Adding a document whose chunk list is empty inserts nothing; only the
IDF recompute runs. -/
theorem add_empty_chunks (fuel : Nat) (db : DB) (path content : String) (csz ov : Int)
    (h : chunk_markdown fuel content csz ov = .ok (some [])) :
    add_markdown_file fuel db path content csz ov = .ok (some (update_idf_scores db)) := by
  simp only [add_markdown_file, h]
  have : insertState db path [] = db := by
    ext <;> simp [insertState, mkChunkRows, mkVecRows]
  rw [this]

/-- Decomposition of a successful add. -/
theorem add_result (fuel : Nat) (db : DB) (path content : String) (csz ov : Int) (db' : DB)
    (h : add_markdown_file fuel db path content csz ov = .ok (some db')) :
    ∃ chunks, chunk_markdown fuel content csz ov = .ok (some chunks) ∧
      db' = update_idf_scores (insertState db path chunks) := by
  rcases hcm : chunk_markdown fuel content csz ov with e | o
  · rw [add_markdown_file, hcm] at h
    cases h
  · rcases o with _ | chunks
    · rw [add_markdown_file, hcm] at h
      cases h
    · rw [add_markdown_file, hcm] at h
      exact ⟨chunks, rfl, (Option.some.inj (Except.ok.inj h)).symm⟩

/-- A successful add of a non-empty chunk list makes `has_source` true. -/
theorem add_nonempty_has_source (fuel : Nat) (db : DB) (path content : String)
    (csz ov : Int) (db' : DB) (chunks : List String)
    (hcm : chunk_markdown fuel content csz ov = .ok (some chunks))
    (hne : chunks ≠ [])
    (h : add_markdown_file fuel db path content csz ov = .ok (some db')) :
    has_source db' path = true := by
  have hdb' : db' = update_idf_scores (insertState db path chunks) := by
    rw [add_markdown_file, hcm] at h
    exact (Option.some.inj (Except.ok.inj h)).symm
  rcases chunks with _ | ⟨c, cs⟩
  · exact absurd rfl hne
  · have hrow : (⟨db.next_id, path, c, 0, ((tokenize c).length : Int)⟩ : ChunkRow) ∈
        db'.chunks := by
      rw [hdb', update_idf_chunks]
      apply List.mem_append_right
      simp [insertState, mkChunkRows]
    rw [has_source, List.any_eq_true]
    exact ⟨_, hrow, by simp⟩

/-- Claim C4 (confirmed; spec-modelled skip mode).  Adding the same source
twice in skip mode with identical parameters leaves `chunk_count` and
`unique_terms` unchanged after the second call. -/
theorem C4_skip_idempotent :
    ∀ (fuel : Nat) (db : DB) (path content : String) (csz ov : Int)
      (db₁ db₂ : DB) (f₁ f₂ : Bool),
      add_markdown_file_mode fuel db path content csz ov .skip = .ok (some (db₁, f₁)) →
      add_markdown_file_mode fuel db₁ path content csz ov .skip = .ok (some (db₂, f₂)) →
      chunk_count db₂ = chunk_count db₁ ∧ unique_terms db₂ = unique_terms db₁ := by
  intro fuel db path content csz ov db₁ db₂ f₁ f₂ h1 h2
  by_cases hs1 : has_source db₁ path = true
  · rw [add_markdown_file_mode, if_pos hs1] at h2
    have : db₁ = db₂ := congrArg Prod.fst (Option.some.inj (Except.ok.inj h2))
    rw [this]
    exact ⟨rfl, rfl⟩
  · -- the second call re-ran the pipeline, so the source is still absent:
    -- the first successful add can only have inserted an empty chunk list
    rw [add_markdown_file_mode, if_neg hs1] at h2
    have hadd2 : ∃ d, add_markdown_file fuel db₁ path content csz ov = .ok (some d) ∧
        d = db₂ := by
      rcases ha : add_markdown_file fuel db₁ path content csz ov with e | o
      · rw [ha] at h2; simp only [Except.map] at h2; cases h2
      · rcases o with _ | d
        · rw [ha] at h2; simp only [Except.map, Option.map] at h2; cases h2
        · rw [ha] at h2
          simp only [Except.map, Option.map] at h2
          refine ⟨d, rfl, ?_⟩
          exact congrArg Prod.fst (Option.some.inj (Except.ok.inj h2))
    obtain ⟨d2, hadd2', hd2⟩ := hadd2
    -- get db₁ from the first call
    have hdb1 : add_markdown_file fuel db path content csz ov = .ok (some db₁) ∨
        (db₁ = db ∧ has_source db path = true) := by
      rw [add_markdown_file_mode] at h1
      by_cases hs0 : has_source db path = true
      · rw [if_pos hs0] at h1
        right
        exact ⟨(congrArg Prod.fst (Option.some.inj (Except.ok.inj h1))).symm, hs0⟩
      · rw [if_neg hs0] at h1
        left
        rcases ha : add_markdown_file fuel db path content csz ov with e | o
        · rw [ha] at h1; simp only [Except.map] at h1; cases h1
        · rcases o with _ | d
          · rw [ha] at h1; simp only [Except.map, Option.map] at h1; cases h1
          · rw [ha] at h1
            simp only [Except.map, Option.map] at h1
            have hd : d = db₁ := congrArg Prod.fst (Option.some.inj (Except.ok.inj h1))
            rw [hd]
    rcases hdb1 with hdb1 | hdb1
    · -- first call ran the pipeline; since the source is still absent the
      -- chunk list must be empty
      obtain ⟨chunks, hcm, hupd⟩ := add_result fuel db path content csz ov db₁ hdb1
      have hchunks : chunks = [] := by
        by_contra hne
        exact hs1 (add_nonempty_has_source fuel db path content csz ov db₁ chunks
          hcm hne hdb1)
      subst hchunks
      have h2' : d2 = update_idf_scores db₁ := by
        have := add_empty_chunks fuel db₁ path content csz ov hcm
        rw [this] at hadd2'
        exact (Option.some.inj (Except.ok.inj hadd2')).symm
      rw [← hd2, h2']
      constructor
      · simp [chunk_count, update_idf_chunks]
      · rw [hupd]
        have hins : insertState db path [] = db := by
          ext <;> simp [insertState, mkChunkRows, mkVecRows]
        rw [hins]
        exact unique_terms_update_idem db
    · -- first call was a skip: the source was already present, so it is
      -- still present in db₁ = db, contradicting hs1
      obtain ⟨hdb, hs0⟩ := hdb1
      rw [hdb] at hs1
      exact absurd hs0 hs1

/-- Witness for C4: re-adding `a.md` to the one-document store `dbA` in skip
mode is a no-op both times (the source is already present). -/
theorem C4_skip_idempotent_witness :
    chunk_count dbA = chunk_count dbA ∧ unique_terms dbA = unique_terms dbA :=
  C4_skip_idempotent 7 dbA "a.md" "dogs dogs dogs" 500 100 dbA dbA false false rfl rfl

/-! ## Claim C5: the IDF invariant after every add -/

/-- Membership in the first-occurrence deduplication pass. -/
theorem mem_firstOccsGo {α : Type} [DecidableEq α] :
    ∀ (l seen : List α) (a : α), a ∈ firstOccsGo seen l ↔ a ∈ l ∧ a ∉ seen := by
  intro l
  induction l with
  | nil => intro seen a; simp [firstOccsGo]
  | cons b rest ih =>
    intro seen a
    by_cases hb : seen.contains b = true
    · rw [firstOccsGo, if_pos hb, ih]
      have hbmem : b ∈ seen := (contains_iff_mem seen b).mp hb
      constructor
      · rintro ⟨h1, h2⟩
        exact ⟨List.mem_cons_of_mem b h1, h2⟩
      · rintro ⟨h1, h2⟩
        rcases List.mem_cons.mp h1 with rfl | h1
        · exact absurd hbmem h2
        · exact ⟨h1, h2⟩
    · rw [firstOccsGo, if_neg hb]
      have hbmem : b ∉ seen := fun hc => hb ((contains_iff_mem seen b).mpr hc)
      constructor
      · intro h
        rcases List.mem_cons.mp h with rfl | h
        · exact ⟨List.mem_cons_self a rest, hbmem⟩
        · obtain ⟨h1, h2⟩ := (ih (seen ++ [b]) a).mp h
          refine ⟨List.mem_cons_of_mem b h1, fun hc => h2 (List.mem_append_left _ hc)⟩
      · rintro ⟨h1, h2⟩
        rcases List.mem_cons.mp h1 with rfl | h1
        · exact List.mem_cons_self a _
        · by_cases hab : a = b
          · subst hab
            exact List.mem_cons_self a _
          · apply List.mem_cons_of_mem
            apply (ih (seen ++ [b]) a).mpr
            refine ⟨h1, fun hc => ?_⟩
            rcases List.mem_append.mp hc with hc | hc
            · exact h2 hc
            · simp at hc
              exact hab hc

/-- `firstOccs` keeps exactly the members. -/
theorem mem_firstOccs {α : Type} [DecidableEq α] (l : List α) (a : α) :
    a ∈ firstOccs l ↔ a ∈ l := by
  rw [firstOccs, mem_firstOccsGo]
  simp

/-- The terms of the grouped rows are the distinct vector terms. -/
theorem idfGroups_terms (total : Nat) (vecs : List VecRow) :
    (idfGroups total vecs).map (fun g => g.term) =
      firstOccs (vecs.map (fun v => v.term)) := by
  simp only [idfGroups, List.map_map]
  exact List.map_id _

/-- Every vector term owns a grouped row. -/
theorem idfGroups_mem_of_term (total : Nat) (vecs : List VecRow) (t : String)
    (h : t ∈ vecs.map (fun v => v.term)) :
    ∃ g ∈ idfGroups total vecs, g.term = t := by
  have : t ∈ (idfGroups total vecs).map (fun g => g.term) := by
    rw [idfGroups_terms, mem_firstOccs]
    exact h
  obtain ⟨g, hg, hgt⟩ := List.mem_map.mp this
  exact ⟨g, hg, hgt⟩

/-- When every old term is also a grouped term, every row of the table after
`INSERT OR REPLACE` is one of the grouped rows. -/
theorem replaceInto_subset_new (old new : List IdfRow)
    (hold : ∀ o ∈ old, o.term ∈ new.map (fun n => n.term)) :
    ∀ r ∈ replaceInto old new, r ∈ new := by
  intro r hr
  rcases List.mem_append.mp hr with hr | hr
  · obtain ⟨o, ho, hoe⟩ := List.mem_map.mp hr
    obtain ⟨m, hm, hmt⟩ := List.mem_map.mp (hold o ho)
    have hsome : (new.find? (fun n => n.term = o.term)).isSome := by
      rw [List.find?_isSome]
      exact ⟨m, hm, by simp [hmt]⟩
    obtain ⟨m', hm'⟩ := Option.isSome_iff_exists.mp hsome
    rw [hm', Option.getD_some] at hoe
    rw [← hoe]
    exact List.mem_of_find?_eq_some hm'
  · exact (List.mem_filter.mp hr).1

/-- A grouped term has a row in the table after `INSERT OR REPLACE`. -/
theorem replaceInto_has_term (old new : List IdfRow) (t : String)
    (h : t ∈ new.map (fun n => n.term)) :
    ∃ r ∈ replaceInto old new, r.term = t := by
  obtain ⟨n, hn, hnt⟩ := List.mem_map.mp h
  obtain ⟨r, hr, hrt⟩ := replaceInto_covers old new n hn
  exact ⟨r, hr, by rw [hrt, hnt]⟩

/-- The invariant of claim C5: `doc_frequency` counts the distinct chunks
containing the term, `idf = ln(total_chunk_count / doc_frequency)`, and
every term-weight entry has `tfidf = tf * idf` of its term. -/
def idfInvariant (db : DB) : Prop :=
  (∀ r ∈ db.idf_scores,
      r.doc_frequency = (distinctChunkCount db.tfidf_vectors r.term : Int) ∧
      r.idf_score = Real.log ((db.chunks.length : ℝ) /
        (distinctChunkCount db.tfidf_vectors r.term : ℝ))) ∧
  (∀ v ∈ db.tfidf_vectors, ∃ r ∈ db.idf_scores,
      r.term = v.term ∧ v.tfidf = v.tf * r.idf_score)

/-- After a recompute on a non-empty corpus whose IDF terms all occur among
the vector rows, the IDF invariant holds. -/
theorem update_invariant_pos (d : DB) (hpos : ¬d.chunks.length = 0)
    (hidf : ∀ r ∈ d.idf_scores, r.term ∈ d.tfidf_vectors.map (fun v => v.term)) :
    idfInvariant (update_idf_scores d) := by
  rw [update_idf_pos d hpos]
  set G := idfGroups d.chunks.length d.tfidf_vectors with hG
  set newIdf := replaceInto d.idf_scores G with hNI
  constructor
  · intro r hr
    have hold : ∀ o ∈ d.idf_scores, o.term ∈ G.map (fun n => n.term) := by
      intro o ho
      rw [hG, idfGroups_terms, mem_firstOccs]
      exact hidf o ho
    have hrG : r ∈ G := replaceInto_subset_new d.idf_scores G hold r hr
    obtain ⟨t, ht, hrt⟩ := List.mem_map.mp hrG
    have hdcc : ∀ u, distinctChunkCount
        (d.tfidf_vectors.map (fun v =>
          { v with tfidf := v.tf *
              (((newIdf.find? (fun x => x.term = v.term)).map (fun x => x.idf_score)).getD 0) })) u =
        distinctChunkCount d.tfidf_vectors u := by
      intro u
      exact distinctChunkCount_map d.tfidf_vectors
        (fun v => { v with tfidf := v.tf *
          (((newIdf.find? (fun x => x.term = v.term)).map (fun x => x.idf_score)).getD 0) })
        (fun v => rfl) (fun v => rfl) u
    constructor
    · rw [← hrt]
      simpa using (hdcc t).symm
    · rw [← hrt]
      simpa using congrArg (fun n : ℕ => Real.log ((d.chunks.length : ℝ) / (n : ℝ)))
        (hdcc t).symm
  · intro v hv
    obtain ⟨v₀, hv₀, hfv⟩ := List.mem_map.mp hv
    have hterm : v.term = v₀.term := by rw [← hfv]
    have htg : v₀.term ∈ G.map (fun n => n.term) := by
      rw [hG, idfGroups_terms, mem_firstOccs]
      exact List.mem_map_of_mem (fun x => x.term) hv₀
    obtain ⟨rg, hrg, hrgt⟩ := replaceInto_has_term d.idf_scores G v₀.term htg
    have hsome : (newIdf.find? (fun x => x.term = v₀.term)).isSome := by
      rw [List.find?_isSome]
      exact ⟨rg, hrg, by simp [hrgt]⟩
    obtain ⟨rf, hrf⟩ := Option.isSome_iff_exists.mp hsome
    refine ⟨rf, List.mem_of_find?_eq_some hrf, ?_, ?_⟩
    · rw [hterm]
      have := List.find?_some hrf
      rwa [decide_eq_true_eq] at this
    · rw [← hfv]
      simp only
      rw [hrf]
      simp

/-- Claim C5 (confirmed).  After every completed add on a store whose IDF
terms occur among its term-weight entries and whose entries reference
existing chunks (both hold for every reachable store, by the table
constraints), the IDF invariant holds: `document_frequency` counts the
distinct chunks containing the term, `idf = ln(total_chunk_count /
document_frequency)`, and every stored entry has `tfidf = tf * idf`;
moreover the recompute is a no-op on an empty corpus. -/
theorem C5_idf_invariant :
    ∀ (fuel : Nat) (db : DB) (path content : String) (csz ov : Int) (db' : DB),
      (∀ r ∈ db.idf_scores, r.term ∈ db.tfidf_vectors.map (fun v => v.term)) →
      (∀ v ∈ db.tfidf_vectors, v.chunk_id ∈ db.chunks.map (fun c => c.id)) →
      add_markdown_file fuel db path content csz ov = .ok (some db') →
      idfInvariant db' ∧ (∀ d : DB, d.chunks = [] → update_idf_scores d = d) := by
  intro fuel db path content csz ov db' hidf hfk hadd
  refine ⟨?_, ?_⟩
  · obtain ⟨chunks, hcm, hupd⟩ := add_result fuel db path content csz ov db' hadd
    by_cases hlen : (insertState db path chunks).chunks.length = 0
    · -- nothing in the corpus at all: both tables must be empty
      have hni : db' = insertState db path chunks := by
        rw [hupd]
        simp only [update_idf_scores, if_pos hlen]
      have hdbchunks : db.chunks = [] ∧
          mkChunkRows path db.next_id 0
            (chunks.zip ((chunks.map tokenize).map (fun l => l.length))) = [] := by
        have := List.length_eq_zero.mp hlen
        have h2 := List.append_eq_nil.mp this
        exact h2
      have hchunksnil : chunks = [] := by
        rcases chunks with _ | ⟨c, cs⟩
        · rfl
        · exact absurd hdbchunks.2 (by simp [mkChunkRows])
      have hvecs : db.tfidf_vectors = [] := by
        rw [List.eq_nil_iff_forall_not_mem]
        intro v hv
        have := hfk v hv
        rw [hdbchunks.1] at this
        cases this
      have hvecs' : db'.tfidf_vectors = [] := by
        rw [hni]
        subst hchunksnil
        simp [insertState, mkVecRows, hvecs]
      have hidf' : db'.idf_scores = db.idf_scores := by
        rw [hni]
        rfl
      constructor
      · intro r hr
        rw [hidf'] at hr
        have := hidf r hr
        rw [hvecs] at this
        cases this
      · intro v hv
        rw [hvecs'] at hv
        cases hv
    · rw [hupd]
      apply update_invariant_pos _ hlen
      intro r hr
      have hr' : r ∈ db.idf_scores := hr
      have := hidf r hr'
      show r.term ∈ (db.tfidf_vectors ++
        mkVecRows db.next_id ((chunks.map tokenize).map calculate_tf)).map (fun v => v.term)
      rw [List.map_append]
      exact List.mem_append_left _ this
  · intro d hd
    simp [update_idf_scores, hd]

/-- Witness for C5: adding an empty document to the empty store completes
and trivially satisfies the invariant (the no-op branch of the recompute). -/
theorem C5_idf_invariant_witness :
    idfInvariant emptyDB ∧ (∀ d : DB, d.chunks = [] → update_idf_scores d = d) :=
  C5_idf_invariant 5 emptyDB "x.md" "" 500 100 emptyDB (by simp [emptyDB])
    (by simp [emptyDB]) rfl

/-! ## Claim C9: what an add preserves of other sources -/

/-- Claim C9 as stated is false.  Indexing `a.md` ("dogs dogs dogs") into the
empty store gives the `dogs` entry the tfidf `1 * ln(1/1) = 0`; adding the
new source `b.md` ("cats cats") raises the total chunk count to 2, the IDF
refresh recomputes `ln(2/1)` and rewrites the stored tfidf of the `a.md`
entry, so that existing row of a different source is mutated by the add. -/
theorem C9_counterexample :
    add_markdown_file 100 emptyDB "a.md" "dogs dogs dogs" 500 100 = .ok (some dbA) ∧
    add_markdown_file 100 dbA "b.md" "cats cats" 500 100 = .ok (some dbAB) ∧
    dbA.chunks.map (fun c => c.source_file) = ["a.md"] ∧
    getTfidf dbA 1 "dogs" =
      some ((((3 : ℕ) : ℝ) / ((3 : ℕ) : ℝ)) * Real.log (((1 : ℕ) : ℝ) / ((1 : ℕ) : ℝ))) ∧
    getTfidf dbAB 1 "dogs" =
      some ((((3 : ℕ) : ℝ) / ((3 : ℕ) : ℝ)) * Real.log (((2 : ℕ) : ℝ) / ((1 : ℕ) : ℝ))) ∧
    getTfidf dbA 1 "dogs" ≠ getTfidf dbAB 1 "dogs" := by
  refine ⟨addA_eq, addB_eq, rfl, rfl, rfl, ?_⟩
  intro heq
  have h1 : getTfidf dbA 1 "dogs" =
      some ((((3 : ℕ) : ℝ) / ((3 : ℕ) : ℝ)) * Real.log (((1 : ℕ) : ℝ) / ((1 : ℕ) : ℝ))) := rfl
  have h2 : getTfidf dbAB 1 "dogs" =
      some ((((3 : ℕ) : ℝ) / ((3 : ℕ) : ℝ)) * Real.log (((2 : ℕ) : ℝ) / ((1 : ℕ) : ℝ))) := rfl
  rw [h1, h2] at heq
  have hval := Option.some.inj heq
  have h3 : ((3 : ℕ) : ℝ) / ((3 : ℕ) : ℝ) = 1 := by norm_num
  have h11 : ((1 : ℕ) : ℝ) / ((1 : ℕ) : ℝ) = 1 := by norm_num
  have h21 : ((2 : ℕ) : ℝ) / ((1 : ℕ) : ℝ) = 2 := by norm_num
  rw [h3, h11, h21, one_mul, one_mul, Real.log_one] at hval
  exact absurd hval.symm (ne_of_gt (Real.log_pos one_lt_two))

/-- Claim C9 as amended: an add never mutates existing chunk rows (of any
source, in particular of other sources), and preserves the `chunk_id`,
`term` and `tf` fields of every existing term-weight entry; only the `tfidf`
field of existing entries may change, refreshed by the corpus-wide IDF
recompute. -/
theorem C9_amended_frame :
    ∀ (fuel : Nat) (db : DB) (path content : String) (csz ov : Int) (db' : DB),
      add_markdown_file fuel db path content csz ov = .ok (some db') →
      (∀ c ∈ db.chunks, c.source_file ≠ path → c ∈ db'.chunks) ∧
      (∀ v ∈ db.tfidf_vectors, ∃ v' ∈ db'.tfidf_vectors,
          v'.chunk_id = v.chunk_id ∧ v'.term = v.term ∧ v'.tf = v.tf) := by
  intro fuel db path content csz ov db' hadd
  obtain ⟨chunks, hcm, hupd⟩ := add_result fuel db path content csz ov db' hadd
  constructor
  · intro c hc _
    rw [hupd, update_idf_chunks]
    exact List.mem_append_left _ hc
  · intro v hv
    have hvi : v ∈ (insertState db path chunks).tfidf_vectors :=
      List.mem_append_left _ hv
    rw [hupd]
    by_cases hlen : (insertState db path chunks).chunks.length = 0
    · refine ⟨v, ?_, rfl, rfl, rfl⟩
      simp only [update_idf_scores, if_pos hlen]
      exact hvi
    · rw [update_idf_pos _ hlen]
      refine ⟨_, List.mem_map_of_mem _ hvi, rfl, rfl, rfl⟩

/-- Witness for C9 (amended): the empty add on the empty store. -/
theorem C9_amended_frame_witness :
    (∀ c ∈ emptyDB.chunks, c.source_file ≠ "x.md" → c ∈ emptyDB.chunks) ∧
    (∀ v ∈ emptyDB.tfidf_vectors, ∃ v' ∈ emptyDB.tfidf_vectors,
        v'.chunk_id = v.chunk_id ∧ v'.term = v.term ∧ v'.tf = v.tf) :=
  C9_amended_frame 5 emptyDB "x.md" "" 500 100 emptyDB rfl

/-! ## Claim C6: the default of top_k -/

/-- Sorted insertion adds one element. -/
theorem insertDesc_length {α : Type} (key : α → ℝ) (x : α) (l : List α) :
    (insertDesc key x l).length = l.length + 1 := by
  induction l with
  | nil => rfl
  | cons y ys ih =>
    rw [insertDesc]
    split
    · simp
    · simp [ih]

/-- Sorting preserves length. -/
theorem sortDesc_length {α : Type} (key : α → ℝ) (l : List α) :
    (sortDesc key l).length = l.length := by
  induction l with
  | nil => rfl
  | cons x xs ih =>
    rw [sortDesc, insertDesc_length, ih]
    rfl

/-- The `dogs` rows of `dbD2`, as selected by the search query. -/
noncomputable def c6rows : List VecRow :=
  [⟨1, "dogs", tfOne, tfOne * idf54⟩, ⟨2, "dogs", tfOne, tfOne * idf54⟩,
   ⟨3, "dogs", tfOne, tfOne * idf54⟩, ⟨4, "dogs", tfOne, tfOne * idf54⟩]

/-- The query magnitude of the query "dogs" against `dbD2`. -/
noncomputable def c6qmag : ℝ := Real.sqrt ((tfOne * idf54) ^ 2 + 0)

/-- The partial magnitude of each of the four candidate chunks. -/
noncomputable def c6mag : ℝ := Real.sqrt ((tfOne * idf54) * (tfOne * idf54) + 0)

/-- The result triple each of the four candidates evaluates to. -/
noncomputable def c6entry : String × ℝ × String :=
  ("dogs", (tfOne * idf54 + 0) / (c6qmag * c6mag), "a.md")

/-- The per-chunk scoring function of the query "dogs" against `dbD2`. -/
noncomputable def c6F : Int → Option (String × ℝ × String) := fun cid =>
  let sub := c6rows.filter (fun v => v.chunk_id = cid)
  let dot := (sub.map (fun v => v.tfidf)).sum
  let mag := Real.sqrt ((sub.map (fun v => v.tfidf * v.tfidf)).sum)
  match dbD2.chunks.find? (fun c => c.id = cid) with
  | some c =>
    if 0 < mag then some (c.chunk_text, dot / (c6qmag * mag), c.source_file)
    else none
  | none => none

/-- The `dogs` weight is positive in `dbD2` (`ln(5/4) > 0`). -/
theorem c6x_pos : (0 : ℝ) < tfOne * idf54 := by
  have h1 : tfOne = 1 := by unfold tfOne; norm_num
  have h2 : (0 : ℝ) < idf54 := by
    unfold idf54
    apply Real.log_pos
    push_cast
    norm_num
  rw [h1, one_mul]
  exact h2

/-- The candidates' partial magnitude is positive. -/
theorem c6mag_pos : (0 : ℝ) < c6mag := by
  unfold c6mag
  apply Real.sqrt_pos.mpr
  rw [add_zero]
  exact mul_pos c6x_pos c6x_pos

/-- Claim C6 as stated is false: `search`'s `top_k` defaults to 5 in the
source, and on a five-chunk corpus in which four chunks match the query, a
call without `top_k` returns 4 results — more than 3. -/
theorem C6_counterexample :
    add_markdown_file 100 emptyDB "a.md" "dogs dogs dogs dogs" 5 0 = .ok (some dbD1) ∧
    add_markdown_file 100 dbD1 "b.md" "cats" 5 0 = .ok (some dbD2) ∧
    resLen (search dbD2 "dogs") = 4 ∧ 3 < resLen (search dbD2 "dogs") := by
  have h1 : c6F 1 = some c6entry := by
    show (if 0 < c6mag then
        some ("dogs", (tfOne * idf54 + 0) / (c6qmag * c6mag), "a.md") else none) =
      some c6entry
    rw [if_pos c6mag_pos]
    rfl
  have h2 : c6F 2 = some c6entry := by
    show (if 0 < c6mag then
        some ("dogs", (tfOne * idf54 + 0) / (c6qmag * c6mag), "a.md") else none) =
      some c6entry
    rw [if_pos c6mag_pos]
    rfl
  have h3 : c6F 3 = some c6entry := by
    show (if 0 < c6mag then
        some ("dogs", (tfOne * idf54 + 0) / (c6qmag * c6mag), "a.md") else none) =
      some c6entry
    rw [if_pos c6mag_pos]
    rfl
  have h4 : c6F 4 = some c6entry := by
    show (if 0 < c6mag then
        some ("dogs", (tfOne * idf54 + 0) / (c6qmag * c6mag), "a.md") else none) =
      some c6entry
    rw [if_pos c6mag_pos]
    rfl
  have hfm : List.filterMap c6F [1, 2, 3, 4] = [c6entry, c6entry, c6entry, c6entry] := by
    simp only [List.filterMap_cons, h1, h2, h3, h4, List.filterMap_nil]
  have heval : search dbD2 "dogs" =
      .ok ((sortDesc (fun r => r.2.1) (List.filterMap c6F [1, 2, 3, 4])).take 5) := rfl
  have hres : resLen (search dbD2 "dogs") = 4 := by
    rw [heval, hfm]
    simp [resLen, List.length_take, sortDesc_length]
  exact ⟨addD1_eq, addD2_eq, hres, by rw [hres]; norm_num⟩

/-- Claim C6 as amended: the source default of `top_k` is 5, so a call
without `top_k` returns at most 5 results. -/
theorem C6_amended_topk_default :
    ∀ (db : DB) (q : String), resLen (search db q) ≤ 5 := by
  intro db q
  simp only [search, searchCore]
  split
  · simp [resLen]
  · split
    · split
      · simp [resLen]
      · simp [resLen, List.length_take]
    · simp [resLen]

/-! ## Claim C1: lemmas on the query side of search -/

/-- Looking a key up in a constant-valued dict built over a list containing
it returns the constant. -/
theorem lookupD_const :
    ∀ (l : List String) (t : String) (c d : ℝ), t ∈ l →
      lookupD (l.map (fun u => (u, c))) t d = c := by
  intro l
  induction l with
  | nil => intro t c d ht; cases ht
  | cons u rest ih =>
    intro t c d ht
    by_cases hu : u = t
    · simp [lookupD, List.find?_cons_of_pos, hu]
    · have ht' : t ∈ rest := by
        rcases List.mem_cons.mp ht with rfl | h
        · exact absurd rfl hu
        · exact h
      have := ih t c d ht'
      simp only [lookupD] at this ⊢
      rw [List.map_cons, List.find?_cons_of_neg _ (by simp [hu])]
      exact this

/-- Inserting a fresh key into a dict appends it. -/
theorem dictInsert_fresh (acc : List (String × ℝ)) (k : String) (v : ℝ)
    (h : ∀ p ∈ acc, p.1 ≠ k) : dictInsert acc k v = acc ++ [(k, v)] := by
  induction acc with
  | nil => rfl
  | cons p rest ih =>
    have hp : ¬(p.1 = k) := h p (by simp)
    simp only [dictInsert, if_neg hp, List.cons_append, List.cons.injEq, true_and]
    exact ih (fun q hq => h q (by simp [hq]))

/-- Folding dict insertions over rows with pairwise distinct terms builds the
association list of the rows in order. -/
theorem foldl_dictInsert_eq_map (g : IdfRow → ℝ) :
    ∀ (rows : List IdfRow) (acc : List (String × ℝ)),
      ((rows.map (fun r => r.term)).Nodup) →
      (∀ r ∈ rows, ∀ p ∈ acc, p.1 ≠ r.term) →
      rows.foldl (fun d r => dictInsert d r.term (g r)) acc =
        acc ++ rows.map (fun r => (r.term, g r)) := by
  intro rows
  induction rows with
  | nil => intro acc _ _; simp
  | cons r rest ih =>
    intro acc hnd hfresh
    simp only [List.foldl_cons]
    rw [dictInsert_fresh acc r.term (g r) (hfresh r (by simp))]
    rw [ih (acc ++ [(r.term, g r)]) (by simpa using (List.nodup_cons.mp (by simpa using hnd)).2) ?_]
    · simp
    · intro u hu p hp
      rcases List.mem_append.mp hp with h1 | h2
      · exact hfresh u (by simp [hu]) p h1
      · have hpt : p = (r.term, g r) := by simpa using h2
        subst hpt
        intro hcontra
        have hmem : u.term ∈ rest.map (fun x => x.term) :=
          List.mem_map_of_mem (fun x => x.term) hu
        rw [← hcontra] at hmem
        exact (List.nodup_cons.mp (by simpa using hnd)).1 hmem

/-- First-occurrence deduplication of a duplicate-free list is the list. -/
theorem firstOccsGo_nodup {α : Type} [DecidableEq α] :
    ∀ (l seen : List α), l.Nodup → (∀ a ∈ l, a ∉ seen) → firstOccsGo seen l = l := by
  intro l
  induction l with
  | nil => intro seen _ _; rfl
  | cons a rest ih =>
    intro seen hnd hfresh
    have ha : ¬(seen.contains a = true) := by
      intro hc
      exact hfresh a (by simp) ((contains_iff_mem seen a).mp hc)
    rw [firstOccsGo, if_neg ha]
    congr 1
    apply ih (seen ++ [a]) (List.nodup_cons.mp hnd).2
    intro b hb hbmem
    rcases List.mem_append.mp hbmem with h1 | h2
    · exact hfresh b (by simp [hb]) h1
    · have : b = a := by simpa using h2
      subst this
      exact (List.nodup_cons.mp hnd).1 hb

/-- `firstOccs` of a duplicate-free list is the list. -/
theorem firstOccs_nodup {α : Type} [DecidableEq α] (l : List α) (h : l.Nodup) :
    firstOccs l = l :=
  firstOccsGo_nodup l [] h (by simp)

/-- `hasIdf` agrees with membership in the table's terms. -/
theorem hasIdf_iff (db : DB) (t : String) :
    hasIdf db t = true ↔ t ∈ idfTerms db := by
  rw [hasIdf, List.any_eq_true, idfTerms]
  constructor
  · rintro ⟨r, hr, hrt⟩
    rw [decide_eq_true_eq] at hrt
    rw [← hrt]
    exact List.mem_map_of_mem _ hr
  · intro h
    obtain ⟨r, hr, hrt⟩ := List.mem_map.mp h
    exact ⟨r, hr, by simp [hrt]⟩

/-- When the keys of a list are pairwise distinct, `find?` by the key of a
member returns exactly that member. -/
theorem find?_key_unique {α β : Type} [DecidableEq β] (key : α → β) :
    ∀ (l : List α), ((l.map key).Nodup) → ∀ r ∈ l,
      l.find? (fun x => key x = key r) = some r := by
  intro l
  induction l with
  | nil => intro _ r hr; cases hr
  | cons a rest ih =>
    intro hnd r hr
    by_cases hk : key a = key r
    · rcases List.mem_cons.mp hr with rfl | hr'
      · exact List.find?_cons_of_pos _ (by simp)
      · exfalso
        have hmem : key r ∈ rest.map key := List.mem_map_of_mem key hr'
        rw [← hk] at hmem
        exact (List.nodup_cons.mp (by simpa using hnd)).1 hmem
    · rw [List.find?_cons_of_neg _ (by simp [hk])]
      rcases List.mem_cons.mp hr with rfl | hr'
      · exact absurd rfl hk
      · exact ih (by simpa using (List.nodup_cons.mp (by simpa using hnd)).2) r hr'

/-! ## Claim C1: lemmas on the grouped chunk scores -/

/-- The deduplication pass skips a prefix of already-seen values. -/
theorem firstOccsGo_skip {α : Type} [DecidableEq α] :
    ∀ (ys zs seen : List α), (∀ y ∈ ys, y ∈ seen) →
      firstOccsGo seen (ys ++ zs) = firstOccsGo seen zs := by
  intro ys
  induction ys with
  | nil => intro zs seen _; rfl
  | cons y ys' ih =>
    intro zs seen h
    have hy : seen.contains y = true := (contains_iff_mem seen y).mpr (h y (by simp))
    rw [List.cons_append, firstOccsGo, if_pos hy]
    exact ih zs seen (fun a ha => h a (by simp [ha]))

/-- Grouping rows that come in per-chunk blocks (in chunk order, with
pairwise distinct chunk ids) yields the ids of the chunks with a non-empty
block, in order. -/
theorem gids_blocks :
    ∀ (chunks : List ChunkRow) (bf : ChunkRow → List VecRow) (seen : List Int),
      (∀ ch, ∀ v ∈ bf ch, v.chunk_id = ch.id) →
      ((chunks.map (fun c => c.id)).Nodup) →
      (∀ ch ∈ chunks, ch.id ∉ seen) →
      firstOccsGo seen ((chunks.flatMap bf).map (fun v => v.chunk_id)) =
        (chunks.filter (fun ch => !(bf ch).isEmpty)).map (fun c => c.id) := by
  intro chunks
  induction chunks with
  | nil => intro bf seen _ _ _; rfl
  | cons ch rest ih
    =>
    intro bf seen hbf hnd hseen
    have hndtail : ((rest.map (fun c => c.id)).Nodup) :=
      (List.nodup_cons.mp (by simpa using hnd)).2
    have hhead : ch.id ∉ rest.map (fun c => c.id) :=
      (List.nodup_cons.mp (by simpa using hnd)).1
    rw [List.flatMap_cons, List.map_append]
    by_cases hbe : bf ch = []
    · rw [hbe]
      simp only [List.map_nil, List.nil_append]
      rw [ih bf seen hbf hndtail (fun c hc => hseen c (by simp [hc]))]
      rw [List.filter_cons]
      have : (!(bf ch).isEmpty) = false := by rw [hbe]; rfl
      rw [this]
      simp
    · obtain ⟨v, vs, hvvs⟩ : ∃ v vs, bf ch = v :: vs := by
        rcases hx : bf ch with _ | ⟨v, vs⟩
        · exact absurd hx hbe
        · exact ⟨v, vs, rfl⟩
      rw [hvvs, List.map_cons, List.cons_append]
      have hvid : v.chunk_id = ch.id := hbf ch v (by rw [hvvs]; simp)
      have hnotseen : ¬(seen.contains v.chunk_id = true) := by
        rw [hvid]
        intro hc
        exact hseen ch (by simp) ((contains_iff_mem seen ch.id).mp hc)
      rw [firstOccsGo, if_neg hnotseen]
      have hskip : firstOccsGo (seen ++ [v.chunk_id])
          ((vs.map (fun x => x.chunk_id)) ++ (rest.flatMap bf).map (fun x => x.chunk_id)) =
          firstOccsGo (seen ++ [v.chunk_id]) ((rest.flatMap bf).map (fun x => x.chunk_id)) := by
        apply firstOccsGo_skip
        intro y hy
        obtain ⟨w, hw, hwid⟩ := List.mem_map.mp hy
        have : w.chunk_id = ch.id := hbf ch w (by rw [hvvs]; simp [hw])
        rw [← hwid, this, ← hvid]
        simp
      rw [hskip]
      rw [ih bf (seen ++ [v.chunk_id]) hbf hndtail ?_]
      · rw [List.filter_cons]
        have : (!(bf ch).isEmpty) = true := by rw [hvvs]; rfl
        rw [this]
        simp [hvid]
      · intro c hc hcmem
        rcases List.mem_append.mp hcmem with h1 | h2
        · exact hseen c (by simp [hc]) h1
        · have : c.id = v.chunk_id := by simpa using h2
          rw [hvid] at this
          exact hhead (this ▸ List.mem_map_of_mem (fun x => x.id) hc)

/-- Filtering flattened per-chunk blocks by the id of one of the chunks
recovers that chunk's block. -/
theorem flatMap_filter_id :
    ∀ (chunks : List ChunkRow) (bf : ChunkRow → List VecRow),
      (∀ ch', ∀ v ∈ bf ch', v.chunk_id = ch'.id) →
      ((chunks.map (fun c => c.id)).Nodup) →
      ∀ ch ∈ chunks,
        (chunks.flatMap bf).filter (fun v => v.chunk_id = ch.id) = bf ch := by
  intro chunks
  induction chunks with
  | nil => intro bf _ _ ch hch; cases hch
  | cons a rest ih =>
    intro bf hbf hnd ch hch
    have hndtail : ((rest.map (fun c => c.id)).Nodup) :=
      (List.nodup_cons.mp (by simpa using hnd)).2
    have hhead : a.id ∉ rest.map (fun c => c.id) :=
      (List.nodup_cons.mp (by simpa using hnd)).1
    rw [List.flatMap_cons, List.filter_append]
    rcases List.mem_cons.mp hch with rfl | hch'
    · have hA : (bf ch).filter (fun v => v.chunk_id = ch.id) = bf ch :=
        List.filter_eq_self.mpr (fun v hv => by simp [hbf ch v hv])
      have hB : (rest.flatMap bf).filter (fun v => v.chunk_id = ch.id) = [] := by
        rw [List.filter_eq_nil_iff]
        intro v hv hvid
        obtain ⟨ch', hch', hvch'⟩ := List.mem_flatMap.mp hv
        have h1 : v.chunk_id = ch'.id := hbf ch' v hvch'
        rw [decide_eq_true_eq] at hvid
        apply hhead
        rw [← hvid, h1]
        exact List.mem_map_of_mem (fun c => c.id) hch'
      rw [hA, hB, List.append_nil]
    · have hA : (bf a).filter (fun v => v.chunk_id = ch.id) = [] := by
        rw [List.filter_eq_nil_iff]
        intro v hv hvid
        have h1 : v.chunk_id = a.id := hbf a v hv
        rw [decide_eq_true_eq] at hvid
        apply hhead
        rw [← h1, hvid]
        exact List.mem_map_of_mem (fun c => c.id) hch'
      rw [hA, List.nil_append]
      exact ih bf hbf hndtail ch hch'

/-! ## Claim C1: the search result formula -/

/-- Claim C1 as stated is false: on the indexed corpus `dbA` the query
"dogs dogs" is non-empty and its token `dogs` is in the IDF table, yet
search raises the prepared-statement error (the repeated token makes the
placeholder count exceed the bound parameter count) instead of returning
the scored triples. -/
theorem C1_counterexample :
    add_markdown_file 100 emptyDB "a.md" "dogs dogs dogs" 500 100 = .ok (some dbA) ∧
    tokenize "dogs dogs" ≠ [] ∧
    "dogs" ∈ tokenize "dogs dogs" ∧ "dogs" ∈ idfTerms dbA ∧
    search dbA "dogs dogs" 5 = .error "prepared statement parameter count mismatch" :=
  ⟨addA_eq, by decide, by decide, by decide, rfl⟩

/-- Claim C1 as amended (restricted to queries without repeated tokens).
For every indexed corpus — formalized by the table constraints: pairwise
distinct IDF terms (primary key), pairwise distinct chunk ids (sequence),
and vector rows grouped per chunk in chunk order (insertion order) — and
every query whose token sequence is non-empty, has no repeated token, and
has at least one term in the IDF table, search returns exactly the claimed
result: every chunk sharing at least one surviving query term is scored
`dot / (query_magnitude * chunk_partial_magnitude)` with the sums taken
over the shared terms, chunks with zero partial magnitude are skipped, and
the candidates are sorted by similarity descending and truncated to
`top_k` as `(chunk_text, similarity, source)` triples. -/
theorem C1_amended_search_formula :
    ∀ (db : DB) (q : String) (k : Nat),
      tokenize q ≠ [] →
      (tokenize q).Nodup →
      (∃ t ∈ tokenize q, t ∈ idfTerms db) →
      (idfTerms db).Nodup →
      (db.chunks.map (fun c => c.id)).Nodup →
      db.tfidf_vectors = db.chunks.flatMap
        (fun c => db.tfidf_vectors.filter (fun v => v.chunk_id = c.id)) →
      search db q k = .ok (specSearch db q k) := by
  intro db q k h1 h2 h3 widf wcid word
  have hctf := calculate_tf_nodup (tokenize q) h2 h1
  have hlen : (calculate_tf (tokenize q)).length = (tokenize q).length := by
    rw [hctf, List.length_map]
  have hkeys : (calculate_tf (tokenize q)).map Prod.fst = tokenize q := by
    rw [hctf, List.map_map]
    exact List.map_id _
  -- the surviving IDF rows
  set c : ℝ := ((1 : ℕ) : ℝ) / (((tokenize q).length : ℕ) : ℝ) with hc
  set surv : List IdfRow := db.idf_scores.filter (fun r => (tokenize q).contains r.term)
    with hsurvdef
  have hsurvterm : ∀ r ∈ surv, r.term ∈ tokenize q := by
    intro r hr
    have := (List.mem_filter.mp hr).2
    exact (contains_iff_mem _ _).mp this
  have hsurvmem : ∀ r ∈ surv, r ∈ db.idf_scores := fun r hr => (List.mem_filter.mp hr).1
  have hsurvnodup : ((surv.map (fun r => r.term)).Nodup) := by
    apply List.Nodup.sublist _ widf
    exact ((List.filter_sublist db.idf_scores).map (fun r => r.term))
  have hqv0 : queryVector db (calculate_tf (tokenize q)) =
      surv.foldl (fun d r => dictInsert d r.term
        (lookupD (calculate_tf (tokenize q)) r.term 0 * r.idf_score)) [] := by
    rw [queryVector, hkeys, hsurvdef]
  have hqv : queryVector db (calculate_tf (tokenize q)) =
      surv.map (fun r => (r.term, lookupD (calculate_tf (tokenize q)) r.term 0 * r.idf_score)) := by
    rw [hqv0]
    simpa using foldl_dictInsert_eq_map
      (fun r => lookupD (calculate_tf (tokenize q)) r.term 0 * r.idf_score)
      surv [] hsurvnodup (by simp)
  have hlookup : ∀ r ∈ surv, lookupD (calculate_tf (tokenize q)) r.term 0 = c := by
    intro r hr
    rw [hctf]
    exact lookupD_const (tokenize q) r.term c 0 (hsurvterm r hr)
  have hqv' : queryVector db (calculate_tf (tokenize q)) =
      surv.map (fun r => (r.term, c * r.idf_score)) := by
    rw [hqv]
    apply List.map_congr_left
    intro r hr
    rw [hlookup r hr]
  have hqvne : queryVector db (calculate_tf (tokenize q)) ≠ [] := by
    obtain ⟨t, ht, htidf⟩ := h3
    obtain ⟨r, hr, hrt⟩ := List.mem_map.mp htidf
    have hrsurv : r ∈ surv := by
      rw [hsurvdef]
      rw [List.mem_filter]
      exact ⟨hr, (contains_iff_mem _ _).mpr (by rw [hrt]; exact ht)⟩
    rw [hqv']
    exact List.ne_nil_of_mem (List.mem_map_of_mem _ hrsurv)
  -- the spec-side surviving terms agree with the code's, as a permutation
  have hspecsurv : specSurvivors db (tokenize q) =
      (tokenize q).filter (fun t => hasIdf db t) := by
    rw [specSurvivors, firstOccs_nodup (tokenize q) h2]
  have hspecnodup : (specSurvivors db (tokenize q)).Nodup := by
    rw [hspecsurv]
    exact h2.filter _
  have hmemeq : ∀ x, x ∈ surv.map (fun r => r.term) ↔ x ∈ specSurvivors db (tokenize q) := by
    intro x
    rw [hspecsurv, List.mem_filter]
    constructor
    · intro hx
      obtain ⟨r, hr, hrx⟩ := List.mem_map.mp hx
      refine ⟨by rw [← hrx]; exact hsurvterm r hr, ?_⟩
      apply (hasIdf_iff db x).mpr
      rw [← hrx]
      exact List.mem_map_of_mem _ (hsurvmem r hr)
    · rintro ⟨hxq, hxidf⟩
      obtain ⟨r, hr, hrx⟩ := List.mem_map.mp ((hasIdf_iff db x).mp hxidf)
      apply List.mem_map.mpr
      refine ⟨r, ?_, hrx⟩
      rw [hsurvdef, List.mem_filter]
      exact ⟨hr, (contains_iff_mem _ _).mpr (by rw [hrx]; exact hxq)⟩
  have hpermterm : (surv.map (fun r => r.term)).Perm (specSurvivors db (tokenize q)) := by
    apply List.perm_of_nodup_nodup_toFinset_eq hsurvnodup hspecnodup
    apply Finset.ext
    intro x
    simp only [List.mem_toFinset]
    exact hmemeq x
  have widf' : ((db.idf_scores.map (fun r => r.term)).Nodup) := widf
  have hidfl : ∀ r ∈ surv, idfLookup db r.term = r.idf_score := by
    intro r hr
    rw [idfLookup, find?_key_unique (fun x => x.term) db.idf_scores widf' r (hsurvmem r hr)]
    rfl
  have hstf : ∀ t ∈ specSurvivors db (tokenize q), specQueryTf (tokenize q) t = c := by
    intro t ht
    rw [hspecsurv, List.mem_filter] at ht
    rw [specQueryTf, List.count_eq_one_of_mem h2 ht.1]
  -- the query magnitudes agree
  have hqmag : Real.sqrt
      (((queryVector db (calculate_tf (tokenize q))).map (fun p => p.2 ^ 2)).sum) =
      specQueryMag db (tokenize q) := by
    rw [specQueryMag]
    congr 1
    have hL : (queryVector db (calculate_tf (tokenize q))).map (fun p => p.2 ^ 2) =
        (surv.map (fun r => r.term)).map (fun t => (c * idfLookup db t) ^ 2) := by
      rw [hqv', List.map_map, List.map_map]
      apply List.map_congr_left
      intro r hr
      simp only [Function.comp]
      rw [hidfl r hr]
    have hR : (specSurvivors db (tokenize q)).map
        (fun t => (specQueryTf (tokenize q) t * idfLookup db t) ^ 2) =
        (specSurvivors db (tokenize q)).map (fun t => (c * idfLookup db t) ^ 2) := by
      apply List.map_congr_left
      intro t ht
      rw [hstf t ht]
    rw [hL, hR]
    exact (hpermterm.map (fun t => (c * idfLookup db t) ^ 2)).sum_eq
  -- the scored candidates agree with the claim's candidates
  have hbf : ∀ (ch : ChunkRow), ∀ v ∈ sharedVecs db (tokenize q) ch.id,
      v.chunk_id = ch.id := by
    intro ch v hv
    have := (List.mem_filter.mp ((List.mem_filter.mp hv).1)).2
    rwa [decide_eq_true_eq] at this
  have hvkeys : (queryVector db (calculate_tf (tokenize q))).map Prod.fst =
      surv.map (fun r => r.term) := by
    rw [hqv', List.map_map]
    apply List.map_congr_left
    intro r _
    rfl
  have hcont : ∀ (x : String),
      ((queryVector db (calculate_tf (tokenize q))).map Prod.fst).contains x =
      (specSurvivors db (tokenize q)).contains x := by
    intro x
    apply Bool.coe_iff_coe.mp
    rw [contains_iff_mem, contains_iff_mem, hvkeys]
    exact hmemeq x
  have hrows : db.tfidf_vectors.filter
      (fun v => ((queryVector db (calculate_tf (tokenize q))).map Prod.fst).contains v.term) =
      db.chunks.flatMap (fun ch => sharedVecs db (tokenize q) ch.id) := by
    have hstep : db.tfidf_vectors.filter
        (fun v => ((queryVector db (calculate_tf (tokenize q))).map Prod.fst).contains v.term) =
        db.tfidf_vectors.filter
        (fun v => (specSurvivors db (tokenize q)).contains v.term) :=
      List.filter_congr (fun v _ => hcont v.term)
    rw [hstep]
    conv_lhs => rw [word]
    rw [List.filter_flatMap]
    rfl
  have hscored : scoredChunks db (queryVector db (calculate_tf (tokenize q)))
      (specQueryMag db (tokenize q)) = specCandidates db (tokenize q) := by
    rw [scoredChunks]
    simp only [hrows]
    have hgo : firstOccs ((db.chunks.flatMap
        (fun ch => sharedVecs db (tokenize q) ch.id)).map (fun v => v.chunk_id)) =
        firstOccsGo [] ((db.chunks.flatMap
        (fun ch => sharedVecs db (tokenize q) ch.id)).map (fun v => v.chunk_id)) := rfl
    rw [hgo, gids_blocks db.chunks (fun ch => sharedVecs db (tokenize q) ch.id) [] hbf wcid
      (by simp)]
    rw [List.filterMap_map, List.filterMap_filter]
    rw [specCandidates]
    apply List.filterMap_congr
    intro ch hch
    have hmap2 : (sharedVecs db (tokenize q) ch.id).map (fun v => v.tfidf * v.tfidf) =
        (sharedVecs db (tokenize q) ch.id).map (fun v => v.tfidf ^ 2) :=
      List.map_congr_left (fun v _ => (pow_two _).symm)
    have hmageq : Real.sqrt
        (((sharedVecs db (tokenize q) ch.id).map (fun v => v.tfidf * v.tfidf)).sum) =
        specChunkMag db (tokenize q) ch.id := by
      rw [specChunkMag, hmap2]
    by_cases hsh : sharedVecs db (tokenize q) ch.id = []
    · have hbe : (!(sharedVecs db (tokenize q) ch.id).isEmpty) = false := by
        rw [hsh]
        rfl
      rw [hbe]
      rw [if_neg (by simp : ¬(false = true))]
      rw [if_neg (by intro hcon; exact hcon.1 hsh)]
    · have hbe : (!(sharedVecs db (tokenize q) ch.id).isEmpty) = true := by
        rcases hx : sharedVecs db (tokenize q) ch.id with _ | ⟨v, vs⟩
        · exact absurd hx hsh
        · rfl
      rw [hbe, if_pos rfl]
      simp only [Function.comp_apply]
      rw [flatMap_filter_id db.chunks (fun ch => sharedVecs db (tokenize q) ch.id) hbf wcid
        ch hch]
      rw [find?_key_unique (fun x => x.id) db.chunks wcid ch hch]
      rw [hmageq]
      dsimp only
      by_cases hm : 0 < specChunkMag db (tokenize q) ch.id
      · rw [if_pos hm, if_pos ⟨hsh, hm⟩]
        rfl
      · rw [if_neg hm, if_neg (by intro hcon; exact hm hcon.2)]
  -- assemble
  simp only [search, searchCore]
  rw [if_neg h1, if_pos hlen, if_neg hqvne, hqmag, hscored]
  rfl

/-- Witness for the amended C1 at the one-document corpus `dbA` and the
query "dogs". -/
theorem C1_amended_search_formula_witness :
    search dbA "dogs" 5 = .ok (specSearch dbA "dogs" 5) :=
  C1_amended_search_formula dbA "dogs" 5 (by decide) (by decide)
    ⟨"dogs", by decide, by decide⟩ (by decide) (by decide) rfl

end MdSearch
